import Mathlib

/-!
# Coordinate-matrix and conformer utilities of `Utils.cpp`

A shallow embedding of the coordinate-buffer / conformer routines of `Utils.cpp`
together with the properties its specification states about them.

Conventions of the embedding.

* A `vector<double>` is a `List ℚ` holding the values of finite doubles.
  Translation and rotation are computed in exact arithmetic, the reading under
  which the specification states their properties (it adds "within floating
  tolerance" for doubles). The centre of mass, which the specification states as
  an equality of computed values, is computed in binary64 arithmetic (`Double`,
  `roundDouble`).
* A `void` routine that works through reference parameters is a function that
  returns the values those parameters hold when the routine is left.
* `abort()` and an access outside a vector are outcomes (`Status.aborted`,
  `Status.fault`) reported next to the state reached so far.
* Sizes and indices are natural numbers: the `unsigned int` counters of the source
  are read in the range where they do not wrap (vectors of fewer than 2^32
  entries). The one signed counter (`int i` in `writeMoleculeConformersToFile`,
  which starts at -1 for a molecule without conformers) is an `Int`.
* The molecule type, the file reader and writer and the dense matrix product
  belong to external libraries; they are modelled from the specification and
  each such definition says so.
-/

namespace Utils

/-! ## Binary64 arithmetic

The centre of mass is the one routine whose property the specification states as
an equality of computed doubles, so its arithmetic is modelled as the machine
performs it: every operation is the exact operation followed by rounding to the
nearest double, ties to even. -/

/-- A binary64 value: a finite double, given by the rational number it denotes
(the sign of a zero is not recorded), an infinity, or a NaN. -/
inductive Double where
  | finite (q : ℚ)
  | posInf
  | negInf
  | nan
deriving DecidableEq, Repr

/-- The integer nearest to `q`, the even one of the two when `q` lies halfway. -/
def roundNearestEven (q : ℚ) : ℤ :=
  if q - ⌊q⌋ < 1 / 2 then ⌊q⌋
  else if 1 / 2 < q - ⌊q⌋ then ⌊q⌋ + 1
  else if ⌊q⌋ % 2 = 0 then ⌊q⌋ else ⌊q⌋ + 1

/-- The exponent of the binade of `q`: the largest `e` with `2 ^ e ≤ |q|`, and
-1022 for the smaller (subnormal) values, which share the spacing of the lowest
binade. -/
def binade (q : ℚ) : ℤ := max (Int.log 2 |q|) (-1022)

/-- Rounding of a real result to binary64, to nearest with ties to even: doubles
of the binade `e` are the multiples of `2 ^ (e - 52)`; a result that rounds to
`2 ^ 1024` or beyond in magnitude is an infinity. -/
def roundDouble (q : ℚ) : Double :=
  if q = 0 then Double.finite 0
  else
    let ulp : ℚ := (2 : ℚ) ^ (binade q - 52)
    let r : ℚ := (roundNearestEven (q / ulp) : ℚ) * ulp
    if (2 : ℚ) ^ (1024 : ℕ) ≤ r then Double.posInf
    else if r ≤ -(2 : ℚ) ^ (1024 : ℕ) then Double.negInf
    else Double.finite r

/-- A rational number that is a double: rounding leaves it as it is. -/
def IsDouble (q : ℚ) : Prop := roundDouble q = Double.finite q

instance (q : ℚ) : Decidable (IsDouble q) := by
  unfold IsDouble
  infer_instance

/-- The sum of two doubles (`+=` of the source). -/
def Double.add : Double → Double → Double
  | Double.finite a, Double.finite b => roundDouble (a + b)
  | Double.nan, _ => Double.nan
  | _, Double.nan => Double.nan
  | Double.posInf, Double.negInf => Double.nan
  | Double.negInf, Double.posInf => Double.nan
  | Double.posInf, _ => Double.posInf
  | _, Double.posInf => Double.posInf
  | Double.negInf, _ => Double.negInf
  | _, Double.negInf => Double.negInf

/-- The quotient of two doubles (`/=` of the source). A zero divisor is read as
+0, which is what a sum started at 0.0 gives: a non-zero value divided by it is an
infinity of the sign of the value, and 0 / 0 is a NaN. -/
def Double.div : Double → Double → Double
  | Double.finite a, Double.finite b =>
    if b = 0 then
      if a = 0 then Double.nan else if 0 < a then Double.posInf else Double.negInf
    else roundDouble (a / b)
  | Double.nan, _ => Double.nan
  | _, Double.nan => Double.nan
  | Double.finite _, _ => Double.finite 0
  | Double.posInf, Double.finite b => if 0 ≤ b then Double.posInf else Double.negInf
  | Double.negInf, Double.finite b => if 0 ≤ b then Double.negInf else Double.posInf
  | _, _ => Double.nan

/-! ## External molecule model -/

/-- Modelled from the spec: an atom of the external molecule model, reduced to what
the routines read from it: its atomic number and its atomic mass. Its position is
not stored here, it lives in the coordinate array of the owning molecule. -/
structure OBAtom where
  atomicNum : Int
  mass : ℚ
deriving DecidableEq, Repr

/-- Modelled from the spec: the external molecule. It carries its atoms, a formula
string, an ordered list of conformer slots (`vconf`, each a flat coordinate array)
and the index `cur` of the slot that is the live geometry. -/
structure OBMol where
  atoms : List OBAtom
  formula : String
  vconf : List (List ℚ)
  cur : Nat
deriving DecidableEq, Repr

/-- Outcome of a routine: it ran to its end, it called `abort()`, or it accessed a
vector outside its bounds. -/
inductive Status where
  | done
  | aborted
  | fault
deriving DecidableEq, Repr

/-- Modelled from the spec: `OBMol::NumAtoms`, the atom count. -/
def NumAtoms (mol : OBMol) : Nat := mol.atoms.length

/-- Modelled from the spec: `OBMol::NumConformers`, the number of conformer slots,
a signed `int` in the library. -/
def NumConformers (mol : OBMol) : Int := (mol.vconf.length : Int)

/-- Modelled from the spec: `OBMol::GetCoordinates`, the live geometry, which is
the coordinate array of the selected conformer slot. -/
def GetCoordinates (mol : OBMol) : List ℚ := mol.vconf.getD mol.cur []

/-- Modelled from the spec: `OBMol::SetCoordinates`, which copies `3 * NumAtoms`
numbers from the given array over the live geometry; the other conformer slots
and the rest of the molecule are left as they are. -/
def SetCoordinates (mol : OBMol) (newCoords : List ℚ) : OBMol :=
  { mol with vconf := mol.vconf.set mol.cur (newCoords.take (3 * NumAtoms mol)) }

/-- Modelled from the spec: `OBMol::SetConformer`, selecting slot `i` as the live
geometry. -/
def SetConformer (mol : OBMol) (i : Nat) : OBMol := { mol with cur := i }

/-- Modelled from the spec: `OBMol::AddConformer`, appending a coordinate array as
a new last conformer slot. -/
def AddConformer (mol : OBMol) (f : List ℚ) : OBMol := { mol with vconf := mol.vconf ++ [f] }

/-- Modelled from the spec: `OBMol::GetFormula`, the formula string. -/
def GetFormula (mol : OBMol) : String := mol.formula

/-- Modelled from the spec: `OBMol::GetMolWt`, the "derived total molecular weight"
of the molecule model: the sum, in doubles and started at 0.0, of the per-atom
masses. -/
def GetMolWt (mol : OBMol) : Double :=
  mol.atoms.foldl (fun molwt a => Double.add molwt (Double.finite a.mass)) (Double.finite 0)

/-- Representation invariant of a molecule that owns a coordinate array: the
selected slot exists and every conformer slot holds three numbers per atom. -/
def Valid (mol : OBMol) : Prop :=
  mol.cur < mol.vconf.length ∧ ∀ g ∈ mol.vconf, g.length = 3 * NumAtoms mol

instance (mol : OBMol) : Decidable (Valid mol) := by
  unfold Valid
  infer_instance

/-! ## External reader and writer -/

/-- Modelled from the spec: the external conversion library, reduced to the
formats it recognises for reading and for writing and to the sequence of molecules
its reader delivers for a file name. -/
structure OBConversion where
  SetInFormat : String → Bool
  SetOutFormat : String → Bool
  ReadFile : String → List OBMol

/-- One call of the external write-one-geometry operation: destination, format,
the molecule as it was handed over and the open mode (`true` = truncate). -/
structure WriteEvent where
  fileName : String
  format : String
  molecule : OBMol
  rewriteFile : Bool
deriving DecidableEq, Repr

/-! ## The routines of `Utils.cpp` -/

/-- `extractFileExtension`: when the name has a dot, `format` becomes what follows
the last dot; otherwise `format` is left as it was. -/
def extractFileExtension (format : String) (fileName : String) : String :=
  if '.' ∈ fileName.toList then
    String.mk (fileName.toList.reverse.takeWhile (fun c => c ≠ '.')).reverse
  else format

/-- The output format `writeMoleculeToFile` settles on: the one named by the
extension, or `sdf` when the library does not know that format. -/
def outputFormat (conv : OBConversion) (fileName : String) : String :=
  let format := extractFileExtension "" fileName
  if conv.SetOutFormat format then format else "sdf"

/-- `writeMoleculeToFile`: one write of the molecule to `fileName`, truncating when
`rewriteFile` is set and appending otherwise, in the format `outputFormat`. -/
def writeMoleculeToFile (conv : OBConversion) (fileName : String) (molecule : OBMol)
    (rewriteFile : Bool) (log : List WriteEvent) : List WriteEvent :=
  log ++ [⟨fileName, outputFormat conv fileName, molecule, rewriteFile⟩]

/-- `generateCoordsMatrixFromMolecule`: `matrix` is cleared and filled with the
first `3 * NumAtoms` numbers of the live geometry. Returns `matrix` and the
molecule. -/
def generateCoordsMatrixFromMolecule (matrix : List ℚ) (molecule : OBMol) :
    List ℚ × OBMol :=
  let cleared : List ℚ := matrix.take 0
  (cleared ++ (GetCoordinates molecule).take (3 * NumAtoms molecule), molecule)

/-- `saveCoordsMatrixToMolecule`: aborts when the size of `matrix` is not three
times the atom count, otherwise copies `matrix` over the live geometry. -/
def saveCoordsMatrixToMolecule (molecule : OBMol) (matrix : List ℚ) : Status × OBMol :=
  if matrix.length ≠ NumAtoms molecule * 3 then (Status.aborted, molecule)
  else (Status.done, SetCoordinates molecule matrix)

/-- `writeTemporaryMoleculeCoordsToFile`: keep the live geometry, put `tempCoords`
in its place, write the molecule once, put the kept geometry back. -/
def writeTemporaryMoleculeCoordsToFile (conv : OBConversion) (fileName : String)
    (molecule : OBMol) (tempCoords : List ℚ) (rewriteFile : Bool)
    (log : List WriteEvent) : Status × OBMol × List WriteEvent :=
  let oldCoords : List ℚ := []
  let (oldCoords, molecule) := generateCoordsMatrixFromMolecule oldCoords molecule
  match saveCoordsMatrixToMolecule molecule tempCoords with
  | (Status.done, molecule) =>
    let log := writeMoleculeToFile conv fileName molecule rewriteFile log
    match saveCoordsMatrixToMolecule molecule oldCoords with
    | (st, molecule) => (st, molecule, log)
  | (st, molecule) => (st, molecule, log)

/-- The read loop of `importMoleculesFromFile`: every molecule the reader still
delivers is appended to `moleculesList` and counted. -/
def readLoop : List OBMol → List OBMol → Nat → List OBMol × Nat
  | [], moleculesList, numMoleculesInFile => (moleculesList, numMoleculesInFile)
  | mol :: rest, moleculesList, numMoleculesInFile =>
    readLoop rest (moleculesList ++ [mol]) (numMoleculesInFile + 1)

/-- `importMoleculesFromFile`: aborts when the library does not know the input
format named by the extension; otherwise appends the molecules of the file to
`moleculesList` and returns their number. -/
def importMoleculesFromFile (conv : OBConversion) (moleculesList : List OBMol)
    (fileName : String) : Status × List OBMol × Nat :=
  let format := extractFileExtension "" fileName
  if conv.SetInFormat format = false then (Status.aborted, moleculesList, 0)
  else
    let (moleculesList, numMoleculesInFile) := readLoop (conv.ReadFile fileName) moleculesList 0
    (Status.done, moleculesList, numMoleculesInFile)

/-- The loop of `importMoleculeConformersFromFile` from index `i` on: a molecule of
`tempList` whose formula equals the formula of the molecule under construction
gives its coordinates as a further conformer. -/
def conformerLoop (tempList : List OBMol) (i : Nat) (tempMoleculeBuild : OBMol) : OBMol :=
  if h : i < tempList.length then
    let tempMoleculeBuild :=
      if GetFormula tempMoleculeBuild = GetFormula tempList[i] then
        AddConformer tempMoleculeBuild (GetCoordinates tempList[i])
      else tempMoleculeBuild
    conformerLoop tempList (i + 1) tempMoleculeBuild
  else tempMoleculeBuild
termination_by tempList.length - i

/-- `importMoleculeConformersFromFile`: reads the file into a fresh list, copies
its first molecule (a read of `tempList[0]` that is outside the vector when the
list is empty), runs the loop from index 1 and appends the built molecule to
`moleculesList`. -/
def importMoleculeConformersFromFile (conv : OBConversion) (moleculesList : List OBMol)
    (fileName : String) : Status × List OBMol :=
  let tempList : List OBMol := []
  match importMoleculesFromFile conv tempList fileName with
  | (Status.done, tempList, _) =>
    match tempList[0]? with
    | none => (Status.fault, moleculesList)
    | some first =>
      let tempMoleculeBuild := conformerLoop tempList 1 first
      (Status.done, moleculesList ++ [tempMoleculeBuild])
  | (st, _, _) => (st, moleculesList)

/-- The loop of `writeMoleculeConformersToFile` from the signed index `i` down to
0: select conformer `i`, write the molecule, clear the overwrite flag. -/
def writeConformersLoop (conv : OBConversion) (fileName : String) (i : Int)
    (molecule : OBMol) (rewriteFile : Bool) (log : List WriteEvent) :
    OBMol × List WriteEvent :=
  if h : 0 ≤ i then
    let molecule := SetConformer molecule i.toNat
    let log := writeMoleculeToFile conv fileName molecule rewriteFile log
    let rewriteFile := false
    writeConformersLoop conv fileName (i - 1) molecule rewriteFile log
  else (molecule, log)
termination_by (i + 1).toNat
decreasing_by omega

/-- `writeMoleculeConformersToFile`: the loop started at `NumConformers - 1`. -/
def writeMoleculeConformersToFile (conv : OBConversion) (fileName : String)
    (molecule : OBMol) (rewriteFile : Bool) (log : List WriteEvent) :
    OBMol × List WriteEvent :=
  writeConformersLoop conv fileName (NumConformers molecule - 1) molecule rewriteFile log

/-- Modelled from the spec: `OBAtom::GetCoordinate` of the atom with index `k`, a
pointer into the live geometry of its molecule at offset `3 * k`. -/
def GetCoordinate (mol : OBMol) (k : Nat) : List ℚ := (GetCoordinates mol).drop (3 * k)

/-- The atom loop of `getMoleculeCenterCoords`: the atoms not yet visited, the
index of the next one and the sums accumulated so far. Each product and each sum
is a double operation. -/
def centerLoop (molecule : OBMol) : List OBAtom → Nat → List Double → List Double
  | [], _, centerCoords => centerCoords
  | atom :: rest, k, centerCoords =>
    let tmpCoords := GetCoordinate molecule k
    let tmpMass := atom.mass
    let centerCoords := centerCoords.set 0
      (Double.add (centerCoords.getD 0 (Double.finite 0))
        (roundDouble (tmpMass * tmpCoords.getD 0 0)))
    let centerCoords := centerCoords.set 1
      (Double.add (centerCoords.getD 1 (Double.finite 0))
        (roundDouble (tmpMass * tmpCoords.getD 1 0)))
    let centerCoords := centerCoords.set 2
      (Double.add (centerCoords.getD 2 (Double.finite 0))
        (roundDouble (tmpMass * tmpCoords.getD 2 0)))
    centerLoop molecule rest (k + 1) centerCoords

/-- `getMoleculeCenterCoords`: `centerCoords` is reset to three zeros, receives the
mass-weighted coordinate sums over the atoms, and every entry is divided by the
molecular weight; all in double arithmetic. -/
def getMoleculeCenterCoords (centerCoords : List Double) (molecule : OBMol) : List Double :=
  let centerCoords : List Double := centerCoords.take 0 ++ List.replicate 3 (Double.finite 0)
  let centerCoords := centerLoop molecule molecule.atoms 0 centerCoords
  centerCoords.map (fun c => Double.div c (GetMolWt molecule))

/-- The loop of `translate3DMatrixCoordinates` from index `i` on, in steps of 3.
An index outside the vector stops the run with `Status.fault`. -/
def translateLoop (x y z : ℚ) (i : Nat) (matrix : List ℚ) : Status × List ℚ :=
  if h : i < matrix.length then
    let m1 := matrix.set i (matrix.getD i 0 + x)
    if h1 : i + 1 < matrix.length then
      let m2 := m1.set (i + 1) (m1.getD (i + 1) 0 + y)
      if h2 : i + 2 < matrix.length then
        let m3 := m2.set (i + 2) (m2.getD (i + 2) 0 + z)
        translateLoop x y z (i + 3) m3
      else (Status.fault, m2)
    else (Status.fault, m1)
  else (Status.done, matrix)
termination_by matrix.length - i
decreasing_by
  simp only [List.length_set]
  omega

/-- `translate3DMatrixCoordinates`: the value of `matrix` after the loop. -/
def translate3DMatrixCoordinates (matrix : List ℚ) (x y z : ℚ) : Status × List ℚ :=
  translateLoop x y z 0 matrix

/-- The entries of `C` after the product of a column-major `m × k` matrix `A`
(leading dimension `lda`) with a column-major `k × n` matrix `B` (leading dimension
`ldb`): entry `(i, j)` of the `m × n` matrix stored in `C` with leading dimension
`ldc` becomes `alpha * (A * B)(i, j) + beta * C(i, j)`; other entries are kept. -/
def dgemmProduct (m n k : Nat) (alpha : ℚ) (A : List ℚ) (lda : Nat) (B : List ℚ)
    (ldb : Nat) (beta : ℚ) (C : List ℚ) (ldc : Nat) : List ℚ :=
  (List.range C.length).map fun idx =>
    let i := idx % ldc
    let j := idx / ldc
    if i < m ∧ j < n then
      alpha * ((List.range k).map fun l => A.getD (i + l * lda) 0 * B.getD (l + j * ldb) 0).sum
        + beta * C.getD idx 0
    else C.getD idx 0

/-- Modelled from the spec: the external dense matrix product `cblas_dgemm` for
column-major operands that are not transposed. It works on raw storage: for a
non-empty result (`m`, `n` positive) it writes the entries `i + j * ldc` of `C`
and, when `k` is positive, reads the entries `i + l * lda` of `A` and
`l + j * ldb` of `B` for all `i < m`, `j < n`, `l < k`. When one of these lies
outside its vector the run ends with `Status.fault`; otherwise `C` receives
`dgemmProduct`. -/
def cblas_dgemm (m n k : Nat) (alpha : ℚ) (A : List ℚ) (lda : Nat) (B : List ℚ)
    (ldb : Nat) (beta : ℚ) (C : List ℚ) (ldc : Nat) : Status × List ℚ :=
  if m = 0 ∨ n = 0 ∨
      ((m - 1) + (n - 1) * ldc < C.length ∧
        (k = 0 ∨ ((m - 1) + (k - 1) * lda < A.length ∧ (k - 1) + (n - 1) * ldb < B.length)))
  then (Status.done, dgemmProduct m n k alpha A lda B ldb beta C ldc)
  else (Status.fault, C)

/-- `rotate3DMatrixCoordinates`: a zero vector of the size of `matrix` receives the
product of the 3 × 3 `rotationMatrix` with `matrix` read as 3 × (size / 3), and is
then assigned to `matrix`. The result is the outcome and the value of `matrix` at
the end: the product after a complete run, the untouched buffer when the product
routine reads outside `rotationMatrix`. -/
def rotate3DMatrixCoordinates (matrix : List ℚ) (rotationMatrix : List ℚ) :
    Status × List ℚ :=
  let resultMatrix : List ℚ := List.replicate matrix.length 0
  match cblas_dgemm 3 (matrix.length / 3) 3 1 rotationMatrix 3 matrix 3 0 resultMatrix 3 with
  | (Status.done, resultMatrix) => (Status.done, resultMatrix)
  | (st, _) => (st, matrix)

/-! ## Auxiliary definitions used in the statements and proofs -/

/-- A one-atom molecule (an oxygen at (1, 2, 3)) used to instantiate the theorems. -/
def oxygenAtom : OBMol := ⟨[⟨8, 16⟩], "O", [[1, 2, 3]], 0⟩

/-- One pass of the body of the loop of `importMoleculeConformersFromFile`. -/
def mergeStep (build c : OBMol) : OBMol :=
  if GetFormula build = GetFormula c then AddConformer build (GetCoordinates c) else build

/-- A water molecule as a reader delivers it, with its one geometry. -/
def waterA : OBMol :=
  ⟨[⟨8, 16⟩, ⟨1, 1⟩, ⟨1, 1⟩], "H2O", [[0, 0, 0, 1, 0, 0, 0, 1, 0]], 0⟩

/-- A carbon dioxide molecule as a reader delivers it. -/
def carbonDioxide : OBMol :=
  ⟨[⟨6, 12⟩, ⟨8, 16⟩, ⟨8, 16⟩], "CO2", [[0, 0, 0, 1, 0, 0, -1, 0, 0]], 0⟩

/-- A second water molecule, with another geometry. -/
def waterC : OBMol :=
  ⟨[⟨8, 16⟩, ⟨1, 1⟩, ⟨1, 1⟩], "H2O", [[5, 5, 5, 6, 5, 5, 5, 6, 5]], 0⟩

/-- A conversion library that knows every format and reads water, carbon dioxide,
water from any file. -/
def threeMoleculeFile : OBConversion :=
  ⟨fun _ => true, fun _ => true, fun _ => [waterA, carbonDioxide, waterC]⟩

/-- A conversion library that knows every format and whose reader finds no
molecule in any file. -/
def emptyFile : OBConversion := ⟨fun _ => true, fun _ => true, fun _ => []⟩

/-- The offset added to every complete triple of a list, triple by triple. -/
def addTriples (x y z : ℚ) : List ℚ → List ℚ
  | a :: b :: c :: rest => (a + x) :: (b + y) :: (c + z) :: addTriples x y z rest
  | l => l

/-- The running double sum, continued from `acc` over the atoms from index `k` on,
of mass times the coordinate in slot `j` (0, 1, 2 for x, y, z) of the live
geometry. -/
def weightedSumFrom (mol : OBMol) (j : Nat) (k : Nat) (atoms : List OBAtom)
    (acc : Double) : Double :=
  (atoms.enumFrom k).foldl
    (fun acc p =>
      Double.add acc (roundDouble (p.2.mass * (GetCoordinates mol).getD (3 * p.1 + j) 0)))
    acc

/-- The running double sum over all atoms of the molecule of mass times
coordinate `j`, started at 0.0. -/
def weightedSum (mol : OBMol) (j : Nat) : Double :=
  weightedSumFrom mol j 0 mol.atoms (Double.finite 0)

/-- The double nearest to one tenth, the value of the literal `0.1`. -/
def oneTenth : ℚ := 3602879701896397 / 36028797018963968

/-- A single atom of mass 3 at (0.1, 0, 0). -/
def massThreeAtom : OBMol := ⟨[⟨1, 3⟩], "T", [[oneTenth, 0, 0]], 0⟩

/-- A single atom of mass 2 at (1, 0, 0). -/
def massTwoAtom : OBMol := ⟨[⟨1, 2⟩], "D", [[1, 0, 0]], 0⟩

/-! ## Helper lemmas on the molecule model -/

theorem list_set_getElem_same {α : Type} (l : List α) (i : Nat) (h : i < l.length) :
    l.set i l[i] = l := by
  apply List.ext_getElem?
  intro j
  rw [List.getElem?_set]
  by_cases hij : i = j
  · subst hij
    simp [h]
  · simp [hij]

theorem getCoordinates_length {M : OBMol} (hM : Valid M) :
    (GetCoordinates M).length = 3 * NumAtoms M := by
  obtain ⟨hc, hall⟩ := hM
  have hmem : GetCoordinates M ∈ M.vconf := by
    unfold GetCoordinates
    rw [List.getD_eq_getElem _ _ hc]
    exact List.getElem_mem _
  exact hall _ hmem

theorem getCoordinates_setCoordinates {M : OBMol} (hc : M.cur < M.vconf.length)
    (B : List ℚ) (hB : B.length = 3 * NumAtoms M) :
    GetCoordinates (SetCoordinates M B) = B := by
  unfold GetCoordinates SetCoordinates
  have hlen : M.cur < (M.vconf.set M.cur (List.take (3 * NumAtoms M) B)).length := by
    simpa using hc
  simp only [NumAtoms] at *
  rw [List.getD_eq_getElem _ _ hlen]
  simp [← hB]

theorem setCoordinates_getCoordinates {M : OBMol} (hM : Valid M) :
    SetCoordinates M (GetCoordinates M) = M := by
  have hl := getCoordinates_length hM
  obtain ⟨hc, _⟩ := hM
  unfold SetCoordinates
  rw [← hl, List.take_length]
  cases M with
  | mk atoms formula vconf cur =>
    simp only [GetCoordinates] at *
    congr 1
    rw [List.getD_eq_getElem _ _ hc]
    exact list_set_getElem_same _ _ hc

theorem setCoordinates_setCoordinates (M : OBMol) (B C : List ℚ) :
    SetCoordinates (SetCoordinates M B) C = SetCoordinates M C := by
  unfold SetCoordinates
  simp [NumAtoms]

/-! ## Injection and extraction of coordinate buffers -/

/-- C2: for a valid molecule `M` and any buffer `B`, `saveCoordsMatrixToMolecule`
aborts (SizeMismatch) exactly when the length of `B` differs from
`3 * NumAtoms M`; when it aborts the molecule is the one that was passed in (in
particular when `B` is one entry short); when it does not abort, the live geometry
is exactly `B` and atoms, formula, selected slot and the other conformer slots are
kept. -/
theorem saveCoordsMatrixToMolecule_sizeMismatch_iff (M : OBMol) (B : List ℚ)
    (hM : Valid M) :
    ((saveCoordsMatrixToMolecule M B).1 = Status.aborted ↔ B.length ≠ 3 * NumAtoms M) ∧
    (B.length ≠ 3 * NumAtoms M → (saveCoordsMatrixToMolecule M B).2 = M) ∧
    (B.length + 1 = 3 * NumAtoms M →
      saveCoordsMatrixToMolecule M B = (Status.aborted, M)) ∧
    (B.length = 3 * NumAtoms M →
      (saveCoordsMatrixToMolecule M B).1 = Status.done ∧
      GetCoordinates (saveCoordsMatrixToMolecule M B).2 = B ∧
      (saveCoordsMatrixToMolecule M B).2.atoms = M.atoms ∧
      (saveCoordsMatrixToMolecule M B).2.formula = M.formula ∧
      (saveCoordsMatrixToMolecule M B).2.cur = M.cur ∧
      ∀ j, j ≠ M.cur → (saveCoordsMatrixToMolecule M B).2.vconf[j]? = M.vconf[j]?) := by
  refine ⟨?_, ?_, ?_, ?_⟩
  · unfold saveCoordsMatrixToMolecule
    by_cases h : B.length = NumAtoms M * 3
    · simp [h, Nat.mul_comm]
    · have h2 : B.length ≠ 3 * NumAtoms M := by omega
      simp [h, h2]
  · intro h
    have h2 : B.length ≠ NumAtoms M * 3 := by omega
    simp [saveCoordsMatrixToMolecule, h2]
  · intro h
    have h2 : B.length ≠ NumAtoms M * 3 := by omega
    simp [saveCoordsMatrixToMolecule, h2]
  · intro h
    have h2 : B.length = NumAtoms M * 3 := by omega
    have hs : saveCoordsMatrixToMolecule M B = (Status.done, SetCoordinates M B) := by
      simp [saveCoordsMatrixToMolecule, h2]
    rw [hs]
    refine ⟨rfl, getCoordinates_setCoordinates hM.1 B h, rfl, rfl, rfl, ?_⟩
    intro j hj
    simp only [SetCoordinates]
    rw [List.getElem?_set_ne (Ne.symm hj)]

/-- C2 at the one-atom molecule: a three-entry buffer becomes the live geometry, a
two-entry buffer aborts and leaves the molecule as it was. -/
theorem saveCoordsMatrixToMolecule_sizeMismatch_iff_witness :
    Valid oxygenAtom ∧
    ((saveCoordsMatrixToMolecule oxygenAtom [4, 5, 6]).1 = Status.done ∧
      GetCoordinates (saveCoordsMatrixToMolecule oxygenAtom [4, 5, 6]).2 = [4, 5, 6]) ∧
    saveCoordsMatrixToMolecule oxygenAtom [4, 5] = (Status.aborted, oxygenAtom) :=
  ⟨by decide,
   ⟨((saveCoordsMatrixToMolecule_sizeMismatch_iff oxygenAtom [4, 5, 6] (by decide)).2.2.2
      (by decide)).1,
    ((saveCoordsMatrixToMolecule_sizeMismatch_iff oxygenAtom [4, 5, 6] (by decide)).2.2.2
      (by decide)).2.1⟩,
   (saveCoordsMatrixToMolecule_sizeMismatch_iff oxygenAtom [4, 5] (by decide)).2.2.1
     (by decide)⟩

/-- C3: for a valid molecule `M`, `generateCoordsMatrixFromMolecule` returns a
buffer of length `3 * NumAtoms M`, which is the live geometry, and leaves `M` as it
is; saving that buffer back does not abort and gives back `M` itself, hence the
same live geometry. -/
theorem generate_then_save_roundtrip (M : OBMol) (matrix : List ℚ) (hM : Valid M) :
    (generateCoordsMatrixFromMolecule matrix M).1.length = 3 * NumAtoms M ∧
    (generateCoordsMatrixFromMolecule matrix M).1 = GetCoordinates M ∧
    (generateCoordsMatrixFromMolecule matrix M).2 = M ∧
    saveCoordsMatrixToMolecule (generateCoordsMatrixFromMolecule matrix M).2
      (generateCoordsMatrixFromMolecule matrix M).1 = (Status.done, M) ∧
    GetCoordinates (saveCoordsMatrixToMolecule (generateCoordsMatrixFromMolecule matrix M).2
      (generateCoordsMatrixFromMolecule matrix M).1).2 = GetCoordinates M := by
  have hl := getCoordinates_length hM
  have hg : generateCoordsMatrixFromMolecule matrix M = (GetCoordinates M, M) := by
    simp [generateCoordsMatrixFromMolecule, ← hl]
  have hs : saveCoordsMatrixToMolecule M (GetCoordinates M) = (Status.done, M) := by
    have h2 : (GetCoordinates M).length = NumAtoms M * 3 := by omega
    simp [saveCoordsMatrixToMolecule, h2, setCoordinates_getCoordinates hM]
  rw [hg]
  refine ⟨hl, rfl, rfl, hs, ?_⟩
  simp only [hs]

/-- C3 at the one-atom molecule, starting from a non-empty output buffer. -/
theorem generate_then_save_roundtrip_witness :
    Valid oxygenAtom ∧
    (generateCoordsMatrixFromMolecule [7] oxygenAtom).1 = [1, 2, 3] ∧
    saveCoordsMatrixToMolecule (generateCoordsMatrixFromMolecule [7] oxygenAtom).2
      (generateCoordsMatrixFromMolecule [7] oxygenAtom).1 = (Status.done, oxygenAtom) :=
  ⟨by decide,
   (generate_then_save_roundtrip oxygenAtom [7] (by decide)).2.1.trans (by decide),
   (generate_then_save_roundtrip oxygenAtom [7] (by decide)).2.2.2.1⟩

/-- C5: for a valid molecule `M` and a buffer `B` of length `3 * NumAtoms M`,
`writeTemporaryMoleculeCoordsToFile` runs to its end, adds exactly one write to the
log, the molecule handed to that write has live geometry `B`, and the molecule
after the call is `M` itself, so its live geometry is the one it had before. -/
theorem writeTemporary_restores (conv : OBConversion) (fileName : String) (M : OBMol)
    (B : List ℚ) (rewriteFile : Bool) (log : List WriteEvent)
    (hM : Valid M) (hB : B.length = 3 * NumAtoms M) :
    ∃ ev : WriteEvent,
      writeTemporaryMoleculeCoordsToFile conv fileName M B rewriteFile log
        = (Status.done, M, log ++ [ev]) ∧
      ev.fileName = fileName ∧ ev.rewriteFile = rewriteFile ∧
      GetCoordinates ev.molecule = B ∧
      GetCoordinates (writeTemporaryMoleculeCoordsToFile conv fileName M B rewriteFile log).2.1
        = GetCoordinates M := by
  have hl := getCoordinates_length hM
  have hg : generateCoordsMatrixFromMolecule [] M = (GetCoordinates M, M) := by
    simp [generateCoordsMatrixFromMolecule, ← hl]
  have h2 : B.length = NumAtoms M * 3 := by omega
  have hs1 : saveCoordsMatrixToMolecule M B = (Status.done, SetCoordinates M B) := by
    simp [saveCoordsMatrixToMolecule, h2]
  have hn : NumAtoms (SetCoordinates M B) = NumAtoms M := rfl
  have hs2 : saveCoordsMatrixToMolecule (SetCoordinates M B) (GetCoordinates M)
      = (Status.done, M) := by
    have h3 : (GetCoordinates M).length = NumAtoms M * 3 := by omega
    simp [saveCoordsMatrixToMolecule, hn, h3, setCoordinates_setCoordinates,
      setCoordinates_getCoordinates hM]
  have hw : writeTemporaryMoleculeCoordsToFile conv fileName M B rewriteFile log
      = (Status.done, M, writeMoleculeToFile conv fileName (SetCoordinates M B) rewriteFile log) := by
    simp only [writeTemporaryMoleculeCoordsToFile, hg, hs1, hs2]
  refine ⟨⟨fileName, outputFormat conv fileName, SetCoordinates M B, rewriteFile⟩,
    ?_, rfl, rfl, ?_, ?_⟩
  · rw [hw]
    rfl
  · exact getCoordinates_setCoordinates hM.1 B hB
  · rw [hw]

/-- C5 at the one-atom molecule and the buffer (4, 5, 6). -/
theorem writeTemporary_restores_witness :
    Valid oxygenAtom ∧ ([4, 5, 6] : List ℚ).length = 3 * NumAtoms oxygenAtom ∧
    ∃ ev : WriteEvent,
      writeTemporaryMoleculeCoordsToFile emptyFile "out.xyz" oxygenAtom [4, 5, 6] true []
        = (Status.done, oxygenAtom, [] ++ [ev]) ∧
      ev.fileName = "out.xyz" ∧ ev.rewriteFile = true ∧
      GetCoordinates ev.molecule = [4, 5, 6] ∧
      GetCoordinates (writeTemporaryMoleculeCoordsToFile emptyFile "out.xyz" oxygenAtom
        [4, 5, 6] true []).2.1 = GetCoordinates oxygenAtom :=
  ⟨by decide, by decide,
   writeTemporary_restores emptyFile "out.xyz" oxygenAtom [4, 5, 6] true []
     (by decide) (by decide)⟩

/-! ## Writing all conformers -/

theorem range_map_getD {α : Type} (l : List α) (d : α) :
    (List.range l.length).map (fun i => l.getD i d) = l := by
  apply List.ext_getElem
  · simp
  · intro i h1 h2
    simp [List.getD_eq_getElem?_getD, List.getElem?_eq_getElem h2]

theorem writeConformersLoop_eq (conv : OBConversion) (fileName : String) (n : Nat) :
    ∀ (mol : OBMol) (rw : Bool) (log : List WriteEvent),
    writeConformersLoop conv fileName ((n : Int) - 1) mol rw log =
      (if n = 0 then mol else SetConformer mol 0,
       log ++ (List.range n).reverse.map (fun i =>
          (⟨fileName, outputFormat conv fileName, SetConformer mol i,
            decide (i + 1 = n) && rw⟩ : WriteEvent))) := by
  induction n with
  | zero =>
    intro mol rw log
    rw [writeConformersLoop]
    simp
  | succ n ih =>
    intro mol rw log
    rw [writeConformersLoop]
    have h0 : (0 : Int) ≤ ((n + 1 : Nat) : Int) - 1 := by omega
    have h1 : ((n + 1 : Nat) : Int) - 1 - 1 = (n : Int) - 1 := by omega
    have h2 : (((n + 1 : Nat) : Int) - 1).toNat = n := by omega
    simp only [h0, ↓reduceDIte, h1, h2]
    rw [ih]
    have hm : (List.range n).reverse.map (fun i =>
          (⟨fileName, outputFormat conv fileName, SetConformer (SetConformer mol n) i,
            decide (i + 1 = n) && false⟩ : WriteEvent))
        = (List.range n).reverse.map (fun i =>
          (⟨fileName, outputFormat conv fileName, SetConformer mol i,
            decide (i + 1 = n + 1) && rw⟩ : WriteEvent)) := by
      apply List.map_congr_left
      intro i hi
      have hi2 : i < n := by simpa using hi
      have hne : ¬ (i + 1 = n + 1) := by omega
      simp [SetConformer, hne]
    rw [hm, List.range_succ, List.reverse_append]
    simp only [writeMoleculeToFile, List.reverse_cons, List.reverse_nil, List.nil_append,
      List.singleton_append, List.map_cons, decide_True, Bool.true_and, List.append_assoc]
    congr 1
    by_cases hn : n = 0
    · subst hn
      simp
    · simp [hn, SetConformer]

/-- C4: `writeMoleculeConformersToFile` on a molecule with conformer slots
`g0 … g(n-1)` adds exactly `n` writes to the log, all to `fileName`; the k-th
write is issued with slot `n-1-k` selected, so the geometries are written in the
order `g(n-1), …, g0`; the first write carries the overwrite flag of the caller
and all later ones carry `false`. With no conformer nothing is written and the
molecule is untouched; with `[g0, g1, g2]` the order is `g2, g1, g0` and the flags
are `rewriteFile, false, false`. -/
theorem writeMoleculeConformersToFile_order (conv : OBConversion) (fileName : String)
    (mol : OBMol) (rewriteFile : Bool) (log : List WriteEvent) :
    ∃ evs : List WriteEvent,
      (writeMoleculeConformersToFile conv fileName mol rewriteFile log).2 = log ++ evs ∧
      evs.length = mol.vconf.length ∧
      evs.map (fun e => e.molecule.cur) = (List.range mol.vconf.length).reverse ∧
      evs.map (fun e => GetCoordinates e.molecule) = mol.vconf.reverse ∧
      evs.map (fun e => e.rewriteFile)
        = (if mol.vconf.length = 0 then []
           else rewriteFile :: List.replicate (mol.vconf.length - 1) false) ∧
      (∀ e ∈ evs, e.fileName = fileName ∧ e.molecule.vconf = mol.vconf) ∧
      (mol.vconf = [] →
        writeMoleculeConformersToFile conv fileName mol rewriteFile log = (mol, log)) ∧
      (∀ g0 g1 g2 : List ℚ, mol.vconf = [g0, g1, g2] →
        evs.map (fun e => GetCoordinates e.molecule) = [g2, g1, g0] ∧
        evs.map (fun e => e.rewriteFile) = [rewriteFile, false, false]) := by
  have hloop := writeConformersLoop_eq conv fileName mol.vconf.length mol rewriteFile log
  have hgeo : ((List.range mol.vconf.length).reverse.map (fun i =>
      (⟨fileName, outputFormat conv fileName, SetConformer mol i,
        decide (i + 1 = mol.vconf.length) && rewriteFile⟩ : WriteEvent))).map
        (fun e => GetCoordinates e.molecule) = mol.vconf.reverse := by
    rw [List.map_map, List.map_reverse]
    congr 1
    exact range_map_getD mol.vconf []
  have hflag : ((List.range mol.vconf.length).reverse.map (fun i =>
      (⟨fileName, outputFormat conv fileName, SetConformer mol i,
        decide (i + 1 = mol.vconf.length) && rewriteFile⟩ : WriteEvent))).map
        (fun e => e.rewriteFile)
      = (if mol.vconf.length = 0 then []
         else rewriteFile :: List.replicate (mol.vconf.length - 1) false) := by
    rw [List.map_map]
    cases hn : mol.vconf.length with
    | zero => simp
    | succ k =>
      rw [List.range_succ, List.reverse_append]
      have hc : (List.range k).reverse.map ((fun e : WriteEvent => e.rewriteFile) ∘ fun i =>
          (⟨fileName, outputFormat conv fileName, SetConformer mol i,
            decide (i + 1 = k + 1) && rewriteFile⟩ : WriteEvent))
          = (List.range k).reverse.map (fun _ => false) := by
        apply List.map_congr_left
        intro i hi
        have hi2 : i < k := by simpa using hi
        have hne : i ≠ k := by omega
        simp [hne]
      simp only [List.reverse_cons, List.reverse_nil, List.nil_append, List.singleton_append,
        List.map_cons, hc]
      simp
  refine ⟨_, ?_, ?_, ?_, hgeo, hflag, ?_, ?_, ?_⟩
  · unfold writeMoleculeConformersToFile NumConformers
    rw [hloop]
  · simp
  · rw [List.map_map, List.map_reverse]
    congr 1
    exact List.map_id _
  · intro e he
    simp only [List.mem_map] at he
    obtain ⟨i, _, rfl⟩ := he
    exact ⟨rfl, rfl⟩
  · intro hnil
    unfold writeMoleculeConformersToFile NumConformers
    rw [hloop]
    simp [hnil]
  · intro g0 g1 g2 h3
    rw [hgeo, hflag, h3]
    simp

/-! ## Merging conformers -/

theorem readLoop_eq (file : List OBMol) :
    ∀ (moleculesList : List OBMol) (n : Nat),
      readLoop file moleculesList n = (moleculesList ++ file, n + file.length) := by
  induction file with
  | nil => intro ml n; simp [readLoop]
  | cons m rest ih =>
    intro ml n
    rw [readLoop, ih]
    simp
    omega

theorem conformerLoop_eq_foldl (tempList : List OBMol) :
    ∀ (k i : Nat) (build : OBMol), tempList.length - i = k →
      conformerLoop tempList i build = (tempList.drop i).foldl mergeStep build := by
  intro k
  induction k with
  | zero =>
    intro i build hk
    have hi : ¬ i < tempList.length := by omega
    rw [conformerLoop]
    rw [List.drop_of_length_le (by omega)]
    simp [hi]
  | succ k ih =>
    intro i build hk
    have hi : i < tempList.length := by omega
    rw [conformerLoop]
    simp only [hi, ↓reduceDIte]
    rw [ih (i + 1) _ (by omega), List.drop_eq_getElem_cons hi]
    rfl

theorem foldl_mergeStep (l : List OBMol) :
    ∀ build : OBMol, l.foldl mergeStep build =
      { build with vconf := build.vconf ++
          (l.filter (fun c => decide (GetFormula c = GetFormula build))).map GetCoordinates } := by
  induction l with
  | nil => intro build; simp
  | cons c rest ih =>
    intro build
    rw [List.foldl_cons, ih]
    by_cases hf : GetFormula build = GetFormula c
    · have hstep : mergeStep build c = AddConformer build (GetCoordinates c) := by
        simp [mergeStep, hf]
      have hf2 : GetFormula c = GetFormula build := hf.symm
      rw [hstep]
      simp [AddConformer, GetFormula, List.filter_cons] at *
      simp [hf2]
    · have hstep : mergeStep build c = build := by
        simp [mergeStep, hf]
      have hf2 : ¬ GetFormula c = GetFormula build := fun h => hf h.symm
      rw [hstep]
      simp [GetFormula, List.filter_cons] at *
      simp [hf2]

theorem importMoleculeConformersFromFile_eq (conv : OBConversion) (ml : List OBMol)
    (fileName : String) (A : OBMol) (rest : List OBMol)
    (hfmt : conv.SetInFormat (extractFileExtension "" fileName) = true)
    (hread : conv.ReadFile fileName = A :: rest) :
    importMoleculeConformersFromFile conv ml fileName
      = (Status.done, ml ++ [rest.foldl mergeStep A]) := by
  have himp : importMoleculesFromFile conv [] fileName
      = (Status.done, A :: rest, 0 + (A :: rest).length) := by
    simp only [importMoleculesFromFile, hfmt, hread, readLoop_eq]
    simp
  have hloop : conformerLoop (A :: rest) 1 A = rest.foldl mergeStep A := by
    rw [conformerLoop_eq_foldl (A :: rest) _ 1 A rfl]
    rfl
  simp only [importMoleculeConformersFromFile, himp]
  simp [hloop]

/-- C1: when the reader delivers the non-empty sequence `A :: rest`,
`importMoleculeConformersFromFile` runs to its end and appends one molecule `r` to
the list of the caller; `r` has the atoms and formula of `A`, and its conformer
slots are those of `A` followed by the live geometries of exactly those members of
`rest` whose formula equals the formula of `A`, in their order in `rest`. When `A`
holds its one geometry, as a molecule fresh from the reader does, the slots are
that geometry at index 0 followed by the geometries of the matching members; a
single candidate gives one conformer, and `[A, B, C]` with the formula of `C` equal
and that of `B` different gives the two conformers `A`, `C`. -/
theorem importMoleculeConformersFromFile_conformers (conv : OBConversion)
    (ml : List OBMol) (fileName : String) (A : OBMol) (rest : List OBMol)
    (hfmt : conv.SetInFormat (extractFileExtension "" fileName) = true)
    (hread : conv.ReadFile fileName = A :: rest) :
    ∃ r : OBMol,
      importMoleculeConformersFromFile conv ml fileName = (Status.done, ml ++ [r]) ∧
      r.atoms = A.atoms ∧ r.formula = A.formula ∧ r.cur = A.cur ∧
      r.vconf = A.vconf ++
        (rest.filter (fun c => decide (GetFormula c = GetFormula A))).map GetCoordinates ∧
      (A.vconf = [GetCoordinates A] →
        r.vconf = GetCoordinates A ::
          (rest.filter (fun c => decide (GetFormula c = GetFormula A))).map GetCoordinates ∧
        r.vconf[0]? = some (GetCoordinates A) ∧
        (rest = [] → r.vconf = [GetCoordinates A] ∧ NumConformers r = 1) ∧
        (∀ B C : OBMol, rest = [B, C] → GetFormula C = GetFormula A →
          GetFormula B ≠ GetFormula A →
          r.vconf = [GetCoordinates A, GetCoordinates C] ∧ NumConformers r = 2)) := by
  refine ⟨rest.foldl mergeStep A,
    importMoleculeConformersFromFile_eq conv ml fileName A rest hfmt hread, ?_⟩
  rw [foldl_mergeStep]
  refine ⟨rfl, rfl, rfl, rfl, ?_⟩
  intro hA
  simp only [hA, List.singleton_append]
  refine ⟨trivial, by simp, ?_, ?_⟩
  · intro hrest
    subst hrest
    simp [NumConformers, hA]
  · intro B C hrest hC hB
    subst hrest
    simp [NumConformers, hA, List.filter_cons, hC, hB]

/-- C1 at a file holding water, carbon dioxide, water. -/
theorem importMoleculeConformersFromFile_conformers_witness :
    threeMoleculeFile.SetInFormat (extractFileExtension "" "in.xyz") = true ∧
    threeMoleculeFile.ReadFile "in.xyz" = waterA :: [carbonDioxide, waterC] ∧
    waterA.vconf = [GetCoordinates waterA] ∧
    ∃ r : OBMol,
      importMoleculeConformersFromFile threeMoleculeFile [] "in.xyz" = (Status.done, [] ++ [r]) ∧
      r.vconf = [[0, 0, 0, 1, 0, 0, 0, 1, 0], [5, 5, 5, 6, 5, 5, 5, 6, 5]] := by
  refine ⟨rfl, rfl, by decide, ?_⟩
  obtain ⟨r, h1, _, _, _, _, h6⟩ :=
    importMoleculeConformersFromFile_conformers threeMoleculeFile [] "in.xyz" waterA
      [carbonDioxide, waterC] rfl rfl
  refine ⟨r, h1, ?_⟩
  have h := (h6 (by decide)).2.2.2 carbonDioxide waterC rfl (by decide) (by decide)
  rw [h.1]
  decide

/-! ## Empty input of the merge -/

/-- C10, the code at an empty file, called with a list that already holds one
molecule: the read ends normally with no molecule, and
`importMoleculeConformersFromFile` does not abort with a diagnosed error; it reads
`tempList[0]` of an empty vector, an access outside the vector. -/
theorem importMoleculeConformersFromFile_empty_faults :
    importMoleculesFromFile emptyFile [] "empty.xyz" = (Status.done, [], 0) ∧
    importMoleculeConformersFromFile emptyFile [waterA] "empty.xyz"
      = (Status.fault, [waterA]) ∧
    (importMoleculeConformersFromFile emptyFile [waterA] "empty.xyz").1 ≠ Status.aborted := by
  have himp : importMoleculesFromFile emptyFile [] "empty.xyz" = (Status.done, [], 0) := by
    simp [importMoleculesFromFile, emptyFile, readLoop]
  have h : importMoleculeConformersFromFile emptyFile [waterA] "empty.xyz"
      = (Status.fault, [waterA]) := by
    simp [importMoleculeConformersFromFile, himp]
  refine ⟨himp, h, ?_⟩
  rw [h]
  decide

/-! ## Translation -/

theorem set_at_length (p s : List ℚ) (a v : ℚ) :
    (p ++ a :: s).set p.length v = p ++ v :: s := by
  induction p with
  | nil => rfl
  | cons h t ih => simp [ih]

theorem getD_at_length (p s : List ℚ) (a d : ℚ) :
    (p ++ a :: s).getD p.length d = a := by
  induction p with
  | nil => rfl
  | cons h t ih => simpa using ih

theorem translateLoop_append (x y z : ℚ) :
    ∀ (n : Nat) (pre suf : List ℚ), suf.length = 3 * n →
      translateLoop x y z pre.length (pre ++ suf) = (Status.done, pre ++ addTriples x y z suf) := by
  intro n
  induction n with
  | zero =>
    intro pre suf hs
    have hnil : suf = [] := List.length_eq_zero.mp (by omega)
    subst hnil
    rw [translateLoop]
    simp [addTriples]
  | succ n ih =>
    intro pre suf hs
    match suf, hs with
    | a :: b :: c :: rest, hs =>
      have hr : rest.length = 3 * n := by
        simp only [List.length_cons] at hs
        omega
      rw [translateLoop]
      have h0 : pre.length < (pre ++ a :: b :: c :: rest).length := by simp
      have h1 : pre.length + 1 < (pre ++ a :: b :: c :: rest).length := by simp
      have h2 : pre.length + 2 < (pre ++ a :: b :: c :: rest).length := by simp
      simp only [h0, h1, h2, ↓reduceDIte]
      have e1 : (pre ++ a :: b :: c :: rest).set pre.length
          ((pre ++ a :: b :: c :: rest).getD pre.length 0 + x)
          = (pre ++ [a + x]) ++ b :: c :: rest := by
        rw [getD_at_length, set_at_length]
        simp
      have l1 : pre.length + 1 = (pre ++ [a + x]).length := by simp
      rw [e1]
      have e2 : ((pre ++ [a + x]) ++ b :: c :: rest).set (pre.length + 1)
          (((pre ++ [a + x]) ++ b :: c :: rest).getD (pre.length + 1) 0 + y)
          = (pre ++ [a + x, b + y]) ++ c :: rest := by
        rw [l1, getD_at_length, set_at_length]
        simp
      have l2 : pre.length + 2 = (pre ++ [a + x, b + y]).length := by simp
      rw [e2]
      have e3 : ((pre ++ [a + x, b + y]) ++ c :: rest).set (pre.length + 2)
          (((pre ++ [a + x, b + y]) ++ c :: rest).getD (pre.length + 2) 0 + z)
          = (pre ++ [a + x, b + y, c + z]) ++ rest := by
        rw [l2, getD_at_length, set_at_length]
        simp
      have l3 : pre.length + 3 = (pre ++ [a + x, b + y, c + z]).length := by simp
      rw [e3, l3, ih _ _ hr]
      simp [addTriples]

theorem addTriples_length (x y z : ℚ) :
    ∀ (n : Nat) (l : List ℚ), l.length = 3 * n → (addTriples x y z l).length = l.length := by
  intro n
  induction n with
  | zero =>
    intro l hl
    have hnil : l = [] := List.length_eq_zero.mp (by omega)
    subst hnil
    simp [addTriples]
  | succ n ih =>
    intro l hl
    match l, hl with
    | a :: b :: c :: rest, hl =>
      have hr : rest.length = 3 * n := by
        simp only [List.length_cons] at hl
        omega
      simp [addTriples, ih rest hr]

theorem addTriples_inverse (x y z : ℚ) :
    ∀ (n : Nat) (l : List ℚ), l.length = 3 * n →
      addTriples (-x) (-y) (-z) (addTriples x y z l) = l := by
  intro n
  induction n with
  | zero =>
    intro l hl
    have hnil : l = [] := List.length_eq_zero.mp (by omega)
    subst hnil
    simp [addTriples]
  | succ n ih =>
    intro l hl
    match l, hl with
    | a :: b :: c :: rest, hl =>
      have hr : rest.length = 3 * n := by
        simp only [List.length_cons] at hl
        omega
      simp [addTriples, ih rest hr]

theorem addTriples_getElem (x y z : ℚ) :
    ∀ (k : Nat) (l : List ℚ), 3 * k + 2 < l.length →
      (addTriples x y z l)[3 * k]? = some (l.getD (3 * k) 0 + x) ∧
      (addTriples x y z l)[3 * k + 1]? = some (l.getD (3 * k + 1) 0 + y) ∧
      (addTriples x y z l)[3 * k + 2]? = some (l.getD (3 * k + 2) 0 + z) := by
  intro k
  induction k with
  | zero =>
    intro l hl
    match l, hl with
    | a :: b :: c :: rest, _ => simp [addTriples]
  | succ k ih =>
    intro l hl
    match l, hl with
    | a :: b :: c :: rest, hl =>
      have hr : 3 * k + 2 < rest.length := by
        simp only [List.length_cons] at hl
        omega
      obtain ⟨h0, h1, h2⟩ := ih rest hr
      have i0 : 3 * (k + 1) = 3 * k + 1 + 1 + 1 := by ring
      have i1 : 3 * (k + 1) + 1 = 3 * k + 1 + 1 + 1 + 1 := by ring
      have i2 : 3 * (k + 1) + 2 = 3 * k + 2 + 1 + 1 + 1 := by ring
      refine ⟨?_, ?_, ?_⟩
      · rw [i0]
        simpa [addTriples] using h0
      · rw [i1]
        simpa [addTriples] using h1
      · rw [i2]
        simpa [addTriples] using h2

/-- C8: for a buffer `B` whose length is a multiple of 3 and any offset,
`translate3DMatrixCoordinates` ends without an access outside the vector, keeps
the length, and adds `dx`, `dy`, `dz` to the first, second and third entry of
every triple; translating the result by the opposite offset gives `B` back. -/
theorem translate3DMatrixCoordinates_inverse (B : List ℚ) (dx dy dz : ℚ)
    (hB : B.length % 3 = 0) :
    ∃ T : List ℚ,
      translate3DMatrixCoordinates B dx dy dz = (Status.done, T) ∧
      T.length = B.length ∧
      (∀ k : Nat, 3 * k + 2 < B.length →
        T[3 * k]? = some (B.getD (3 * k) 0 + dx) ∧
        T[3 * k + 1]? = some (B.getD (3 * k + 1) 0 + dy) ∧
        T[3 * k + 2]? = some (B.getD (3 * k + 2) 0 + dz)) ∧
      translate3DMatrixCoordinates T (-dx) (-dy) (-dz) = (Status.done, B) := by
  have hn : B.length = 3 * (B.length / 3) := by omega
  have hlen := addTriples_length dx dy dz _ B hn
  have hfwd := translateLoop_append dx dy dz _ [] B hn
  have hbwd := translateLoop_append (-dx) (-dy) (-dz) _ [] (addTriples dx dy dz B)
    (hlen.trans hn)
  simp only [List.length_nil, List.nil_append] at hfwd hbwd
  rw [addTriples_inverse dx dy dz _ B hn] at hbwd
  exact ⟨addTriples dx dy dz B, hfwd, hlen,
    fun k hk => addTriples_getElem dx dy dz k B hk, hbwd⟩

/-- C8 at a two-atom buffer and the offset (1, 2, 3). -/
theorem translate3DMatrixCoordinates_inverse_witness :
    ([0, 0, 0, 1, 1, 1] : List ℚ).length % 3 = 0 ∧
    ∃ T : List ℚ,
      translate3DMatrixCoordinates [0, 0, 0, 1, 1, 1] 1 2 3 = (Status.done, T) ∧
      T.length = ([0, 0, 0, 1, 1, 1] : List ℚ).length ∧
      (∀ k : Nat, 3 * k + 2 < ([0, 0, 0, 1, 1, 1] : List ℚ).length →
        T[3 * k]? = some (([0, 0, 0, 1, 1, 1] : List ℚ).getD (3 * k) 0 + 1) ∧
        T[3 * k + 1]? = some (([0, 0, 0, 1, 1, 1] : List ℚ).getD (3 * k + 1) 0 + 2) ∧
        T[3 * k + 2]? = some (([0, 0, 0, 1, 1, 1] : List ℚ).getD (3 * k + 2) 0 + 3)) ∧
      translate3DMatrixCoordinates T (-1) (-2) (-3) = (Status.done, [0, 0, 0, 1, 1, 1]) :=
  ⟨by decide, translate3DMatrixCoordinates_inverse [0, 0, 0, 1, 1, 1] 1 2 3 (by decide)⟩

/-! ## Rotation -/

theorem dgemmProduct_length (m n k : Nat) (alpha : ℚ) (A : List ℚ) (lda : Nat) (B : List ℚ)
    (ldb : Nat) (beta : ℚ) (C : List ℚ) (ldc : Nat) :
    (dgemmProduct m n k alpha A lda B ldb beta C ldc).length = C.length := by
  simp [dgemmProduct]

theorem rotate_done (B R : List ℚ) (hR : 9 ≤ R.length) :
    rotate3DMatrixCoordinates B R =
      (Status.done,
        dgemmProduct 3 (B.length / 3) 3 1 R 3 B 3 0 (List.replicate B.length 0) 3) := by
  have hcond : (3 = 0 ∨ B.length / 3 = 0 ∨
      ((3 - 1) + (B.length / 3 - 1) * 3 < (List.replicate B.length (0 : ℚ)).length ∧
        (3 = 0 ∨ ((3 - 1) + (3 - 1) * 3 < R.length ∧
          (3 - 1) + (B.length / 3 - 1) * 3 < B.length)))) := by
    by_cases h0 : B.length / 3 = 0
    · exact Or.inr (Or.inl h0)
    · refine Or.inr (Or.inr ⟨?_, Or.inr ⟨?_, ?_⟩⟩)
      · simp only [List.length_replicate]
        omega
      · omega
      · omega
  simp only [rotate3DMatrixCoordinates, cblas_dgemm, if_pos hcond]

/-- A rotation buffer with fewer than 9 entries, applied to a buffer with at least
one complete triple, is read outside its bounds: the call ends with
`Status.fault` before `matrix` is assigned. -/
theorem rotate_fault (B R : List ℚ) (hR : R.length < 9) (hB : 3 ≤ B.length) :
    rotate3DMatrixCoordinates B R = (Status.fault, B) := by
  have hcond : ¬ (3 = 0 ∨ B.length / 3 = 0 ∨
      ((3 - 1) + (B.length / 3 - 1) * 3 < (List.replicate B.length (0 : ℚ)).length ∧
        (3 = 0 ∨ ((3 - 1) + (3 - 1) * 3 < R.length ∧
          (3 - 1) + (B.length / 3 - 1) * 3 < B.length)))) := by
    intro h
    rcases h with h | h | ⟨_, h | ⟨h, _⟩⟩
    · omega
    · omega
    · omega
    · omega
  simp only [rotate3DMatrixCoordinates, cblas_dgemm, if_neg hcond]

theorem rotate_length (B R : List ℚ) (hR : 9 ≤ R.length) :
    (rotate3DMatrixCoordinates B R).2.length = B.length := by
  simp [rotate_done B R hR, dgemmProduct_length]

theorem rotate_getElem (B R : List ℚ) (hR : 9 ≤ R.length) (k r : Nat) (hr : r < 3)
    (hk : 3 * k + 2 < B.length) :
    (rotate3DMatrixCoordinates B R).2[3 * k + r]? =
      some (R.getD r 0 * B.getD (3 * k) 0 + R.getD (r + 3) 0 * B.getD (3 * k + 1) 0
        + R.getD (r + 6) 0 * B.getD (3 * k + 2) 0) := by
  have hidx : 3 * k + r < B.length := by omega
  have hmod : (3 * k + r) % 3 = r := by omega
  have hdiv : (3 * k + r) / 3 = k := by omega
  have hkn : k < B.length / 3 := by omega
  rw [rotate_done B R hR]
  simp only [dgemmProduct, List.length_replicate]
  rw [List.getElem?_map, List.getElem?_range hidx]
  simp only [Option.map_some', hmod, hdiv, hr, hkn, and_self, ↓reduceIte]
  simp [List.range_succ, Nat.mul_comm k 3]
  rw [Nat.add_comm 1 (3 * k), Nat.add_comm 2 (3 * k)]
  ring

theorem rotate_identity :
    ∀ (n : Nat) (B : List ℚ), B.length = 3 * n →
      rotate3DMatrixCoordinates B [1, 0, 0, 0, 1, 0, 0, 0, 1] = (Status.done, B) := by
  intro n B hn
  have h9 : 9 ≤ ([1, 0, 0, 0, 1, 0, 0, 0, 1] : List ℚ).length := by decide
  have hst : (rotate3DMatrixCoordinates B [1, 0, 0, 0, 1, 0, 0, 0, 1]).1 = Status.done := by
    rw [rotate_done B _ h9]
  suffices h2 : (rotate3DMatrixCoordinates B [1, 0, 0, 0, 1, 0, 0, 0, 1]).2 = B by
    exact Prod.ext hst h2
  apply List.ext_getElem?
  intro i
  by_cases hi : i < B.length
  · have hk : 3 * (i / 3) + 2 < B.length := by omega
    have hr : i % 3 < 3 := Nat.mod_lt _ (by decide)
    have hi3 : 3 * (i / 3) + i % 3 = i := Nat.div_add_mod i 3
    have h := rotate_getElem B [1, 0, 0, 0, 1, 0, 0, 0, 1] h9 (i / 3) (i % 3) hr hk
    rw [hi3] at h
    rw [h, List.getElem?_eq_getElem hi]
    have hcases : i % 3 = 0 ∨ i % 3 = 1 ∨ i % 3 = 2 := by omega
    rcases hcases with h0 | h1 | h2
    · have e : 3 * (i / 3) = i := by omega
      simp [h0, e, List.getD_eq_getElem?_getD, List.getElem?_eq_getElem hi]
    · have e : 3 * (i / 3) + 1 = i := by omega
      simp [h1, e, List.getD_eq_getElem?_getD, List.getElem?_eq_getElem hi]
    · have e : 3 * (i / 3) + 2 = i := by omega
      simp [h2, e, List.getD_eq_getElem?_getD, List.getElem?_eq_getElem hi]
  · have h1 : B.length ≤ i := by omega
    have h2 : (rotate3DMatrixCoordinates B [1, 0, 0, 0, 1, 0, 0, 0, 1]).2.length ≤ i := by
      rw [rotate_length B _ h9]
      exact h1
    rw [List.getElem?_eq_none h1, List.getElem?_eq_none h2]

/-- C6: for a buffer `B` whose length is a multiple of 3 and a 9-entry rotation
buffer `R` read column-major (entry (r, c) at index `r + 3 * c`),
`rotate3DMatrixCoordinates` runs to its end and gives a buffer of the length of
`B` whose triple `k` is the product of `R` with triple `k` of `B`; with the
identity matrix for `R` the buffer equals `B`. -/
theorem rotate3DMatrixCoordinates_product (B R : List ℚ) (hB : B.length % 3 = 0)
    (hR : R.length = 9) :
    (rotate3DMatrixCoordinates B R).1 = Status.done ∧
    (rotate3DMatrixCoordinates B R).2.length = B.length ∧
    (∀ (k r : Nat) (hr : r < 3) (hk : 3 * k + 2 < B.length),
      (rotate3DMatrixCoordinates B R).2[3 * k + r]? =
        some (R[r] * B[3 * k] + R[r + 3] * B[3 * k + 1] + R[r + 6] * B[3 * k + 2])) ∧
    rotate3DMatrixCoordinates B [1, 0, 0, 0, 1, 0, 0, 0, 1] = (Status.done, B) := by
  have h9 : 9 ≤ R.length := by omega
  refine ⟨by rw [rotate_done B R h9], rotate_length B R h9, ?_,
    rotate_identity (B.length / 3) B (by omega)⟩
  intro k r hr hk
  rw [rotate_getElem B R h9 k r hr hk]
  have r0 : r < R.length := by omega
  have r3 : r + 3 < R.length := by omega
  have r6 : r + 6 < R.length := by omega
  have b0 : 3 * k < B.length := by omega
  have b1 : 3 * k + 1 < B.length := by omega
  simp [List.getD_eq_getElem?_getD, List.getElem?_eq_getElem, r0, r3, r6, b0, b1, hk]

/-- C6 at a two-atom buffer and the quarter turn about the z axis. -/
theorem rotate3DMatrixCoordinates_product_witness :
    ([1, 0, 0, 0, 2, 5] : List ℚ).length % 3 = 0 ∧
    ([0, 1, 0, -1, 0, 0, 0, 0, 1] : List ℚ).length = 9 ∧
    (rotate3DMatrixCoordinates [1, 0, 0, 0, 2, 5] [0, 1, 0, -1, 0, 0, 0, 0, 1]).1
      = Status.done ∧
    (rotate3DMatrixCoordinates [1, 0, 0, 0, 2, 5] [0, 1, 0, -1, 0, 0, 0, 0, 1]).2.length = 6 ∧
    rotate3DMatrixCoordinates [1, 0, 0, 0, 2, 5] [1, 0, 0, 0, 1, 0, 0, 0, 1]
      = (Status.done, [1, 0, 0, 0, 2, 5]) :=
  ⟨by decide, by decide,
   (rotate3DMatrixCoordinates_product [1, 0, 0, 0, 2, 5] [0, 1, 0, -1, 0, 0, 0, 0, 1]
      (by decide) (by decide)).1,
   (rotate3DMatrixCoordinates_product [1, 0, 0, 0, 2, 5] [0, 1, 0, -1, 0, 0, 0, 0, 1]
      (by decide) (by decide)).2.1,
   (rotate3DMatrixCoordinates_product [1, 0, 0, 0, 2, 5] [0, 1, 0, -1, 0, 0, 0, 0, 1]
      (by decide) (by decide)).2.2.2⟩

/-- C7 as stated fails: after the call the buffer of the caller no longer holds
its original values. The buffer (1, 0, 0) rotated by the quarter turn about the z
axis holds (0, 1, 0). -/
theorem rotate3DMatrixCoordinates_overwrites_input :
    rotate3DMatrixCoordinates [1, 0, 0] [0, 1, 0, -1, 0, 0, 0, 0, 1]
      = (Status.done, [0, 1, 0]) ∧
    (rotate3DMatrixCoordinates [1, 0, 0] [0, 1, 0, -1, 0, 0, 0, 0, 1]).2 ≠ [1, 0, 0] := by
  have h : rotate3DMatrixCoordinates [1, 0, 0] [0, 1, 0, -1, 0, 0, 0, 0, 1]
      = (Status.done, [0, 1, 0]) := by
    rw [rotate_done _ _ (by decide)]
    simp [dgemmProduct, List.range_succ, List.replicate]
  rw [h]
  exact ⟨rfl, by decide⟩

/-- C7 amended: `rotate3DMatrixCoordinates` works in place. For a 9-entry rotation
buffer `R` the call runs to its end, and the value its reference parameter
`matrix` holds afterwards has the length of the original buffer `B`, every
complete triple of it is the product of `R` with the corresponding triple of `B`,
and the entries behind the last complete triple are zero. -/
theorem rotate3DMatrixCoordinates_in_place (B R : List ℚ) (hR : R.length = 9) :
    (rotate3DMatrixCoordinates B R).1 = Status.done ∧
    (rotate3DMatrixCoordinates B R).2.length = B.length ∧
    (∀ (k r : Nat) (hr : r < 3) (hk : 3 * k + 2 < B.length),
      (rotate3DMatrixCoordinates B R).2[3 * k + r]? =
        some (R[r] * B[3 * k] + R[r + 3] * B[3 * k + 1] + R[r + 6] * B[3 * k + 2])) ∧
    (∀ i : Nat, 3 * (B.length / 3) ≤ i → i < B.length →
      (rotate3DMatrixCoordinates B R).2[i]? = some 0) := by
  have h9 : 9 ≤ R.length := by omega
  refine ⟨by rw [rotate_done B R h9], rotate_length B R h9, ?_, ?_⟩
  · intro k r hr hk
    rw [rotate_getElem B R h9 k r hr hk]
    have r0 : r < R.length := by omega
    have r3 : r + 3 < R.length := by omega
    have r6 : r + 6 < R.length := by omega
    have b0 : 3 * k < B.length := by omega
    have b1 : 3 * k + 1 < B.length := by omega
    simp [List.getD_eq_getElem?_getD, List.getElem?_eq_getElem, r0, r3, r6, b0, b1, hk]
  · intro i hlo hi
    have hdiv : ¬ i / 3 < B.length / 3 := by omega
    rw [rotate_done B R h9]
    simp only [dgemmProduct, List.length_replicate]
    rw [List.getElem?_map, List.getElem?_range hi]
    simp [hdiv, hi]

/-- C7 amended, at a ragged four-entry buffer and the quarter turn about the z
axis: the buffer of the caller holds the rotated triple and a zero. -/
theorem rotate3DMatrixCoordinates_in_place_witness :
    ([0, 1, 0, -1, 0, 0, 0, 0, 1] : List ℚ).length = 9 ∧
    (rotate3DMatrixCoordinates [1, 0, 0, 7] [0, 1, 0, -1, 0, 0, 0, 0, 1]).1 = Status.done ∧
    (rotate3DMatrixCoordinates [1, 0, 0, 7] [0, 1, 0, -1, 0, 0, 0, 0, 1]).2.length = 4 ∧
    (rotate3DMatrixCoordinates [1, 0, 0, 7] [0, 1, 0, -1, 0, 0, 0, 0, 1]).2[3]? = some 0 :=
  ⟨by decide,
   (rotate3DMatrixCoordinates_in_place [1, 0, 0, 7] [0, 1, 0, -1, 0, 0, 0, 0, 1]
      (by decide)).1,
   (rotate3DMatrixCoordinates_in_place [1, 0, 0, 7] [0, 1, 0, -1, 0, 0, 0, 0, 1]
      (by decide)).2.1,
   (rotate3DMatrixCoordinates_in_place [1, 0, 0, 7] [0, 1, 0, -1, 0, 0, 0, 0, 1]
      (by decide)).2.2.2 3 (by decide) (by decide)⟩

/-! ## Rounding to binary64 -/

theorem floor_of_near_ge (q : ℚ) (n : ℤ) (h1 : (n : ℚ) ≤ q) (h2 : q < n + 1) : ⌊q⌋ = n :=
  Int.floor_eq_iff.mpr ⟨h1, h2⟩

theorem roundNearestEven_near (q : ℚ) (n : ℤ) (h1 : (n : ℚ) - 1 / 2 < q)
    (h2 : q < n + 1 / 2) : roundNearestEven q = n := by
  rcases le_or_lt (n : ℚ) q with h | h
  · have hf : ⌊q⌋ = n := floor_of_near_ge q n h (by linarith)
    have hlt : q - (n : ℚ) < 1 / 2 := by linarith
    simp only [roundNearestEven, hf, if_pos hlt]
  · have hf : ⌊q⌋ = n - 1 := floor_of_near_ge q (n - 1) (by push_cast; linarith) (by push_cast; linarith)
    have h3 : ¬ q - ((n - 1 : ℤ) : ℚ) < 1 / 2 := by push_cast; linarith
    have h4 : 1 / 2 < q - ((n - 1 : ℤ) : ℚ) := by push_cast; linarith
    simp only [roundNearestEven, hf, if_neg h3, if_pos h4]
    ring

theorem roundNearestEven_tie_odd (q : ℚ) (f : ℤ) (h : q = f + 1 / 2) (hodd : f % 2 = 1) :
    roundNearestEven q = f + 1 := by
  have hf : ⌊q⌋ = f := floor_of_near_ge q f (by linarith) (by linarith)
  have h3 : ¬ q - (f : ℚ) < 1 / 2 := by linarith
  have h4 : ¬ 1 / 2 < q - (f : ℚ) := by linarith
  have h5 : ¬ f % 2 = 0 := by omega
  simp only [roundNearestEven, hf, if_neg h3, if_neg h4, if_neg h5]

theorem roundNearestEven_intCast (z : ℤ) : roundNearestEven (z : ℚ) = z :=
  roundNearestEven_near _ z (by linarith) (by linarith)

theorem roundNearestEven_abs_sub_le (q : ℚ) : |(roundNearestEven q : ℚ) - q| ≤ 1 / 2 := by
  have h1 : (⌊q⌋ : ℚ) ≤ q := Int.floor_le q
  have h2 : q < ⌊q⌋ + 1 := Int.lt_floor_add_one q
  unfold roundNearestEven
  split_ifs with ha hb hc
  · rw [abs_le]; constructor <;> linarith
  · rw [abs_le]; push_cast; constructor <;> linarith
  · rw [abs_le]; constructor <;> linarith
  · rw [abs_le]; push_cast; constructor <;> linarith

theorem binade_eq (q : ℚ) (e : ℤ) (he : -1022 ≤ e) (hlo : (2 : ℚ) ^ e ≤ |q|)
    (hhi : |q| < (2 : ℚ) ^ (e + 1)) : binade q = e := by
  have hpos : 0 < |q| := lt_of_lt_of_le (by positivity) hlo
  have h1 : e ≤ Int.log 2 |q| :=
    (Int.zpow_le_iff_le_log (by norm_num) hpos).mp (by simpa using hlo)
  have h2 : Int.log 2 |q| < e + 1 :=
    (Int.lt_zpow_iff_log_lt (by norm_num) hpos).mp (by simpa using hhi)
  have h3 : Int.log 2 |q| = e := by omega
  simp only [binade, h3]
  omega

theorem binade_subnormal (q : ℚ) (h0 : q ≠ 0) (hhi : |q| < (2 : ℚ) ^ (-1022 : ℤ)) :
    binade q = -1022 := by
  have hpos : 0 < |q| := abs_pos.mpr h0
  have h2 : Int.log 2 |q| < -1022 :=
    (Int.lt_zpow_iff_log_lt (by norm_num) hpos).mp (by simpa using hhi)
  simp only [binade]
  omega

theorem roundDouble_eq (q : ℚ) (e n : ℤ) (hq : q ≠ 0) (he : binade q = e)
    (hn : roundNearestEven (q / (2 : ℚ) ^ (e - 52)) = n)
    (hlt : (n : ℚ) * (2 : ℚ) ^ (e - 52) < (2 : ℚ) ^ (1024 : ℕ))
    (hgt : -(2 : ℚ) ^ (1024 : ℕ) < (n : ℚ) * (2 : ℚ) ^ (e - 52)) :
    roundDouble q = Double.finite ((n : ℚ) * (2 : ℚ) ^ (e - 52)) := by
  simp only [roundDouble, if_neg hq, he, hn, if_neg (not_le.mpr hlt), if_neg (not_le.mpr hgt)]

theorem roundDouble_three_tenths :
    roundDouble (3 * oneTenth) = Double.finite (5404319552844596 / 18014398509481984) := by
  have hb : binade (3 * oneTenth) = -2 :=
    binade_eq _ _ (by norm_num) (by norm_num [oneTenth, abs_of_pos])
      (by norm_num [oneTenth, abs_of_pos])
  have hn : roundNearestEven (3 * oneTenth / (2 : ℚ) ^ ((-2 : ℤ) - 52)) = 5404319552844595 + 1 :=
    roundNearestEven_tie_odd _ _ (by norm_num [oneTenth]) (by norm_num)
  rw [roundDouble_eq _ (-2) (5404319552844595 + 1) (by norm_num [oneTenth]) hb hn
    (by norm_num) (by norm_num)]
  norm_num

theorem two_zpow_succ (e : ℤ) : (2 : ℚ) ^ (e + 1) = 2 ^ (53 : ℕ) * (2 : ℚ) ^ (e - 52) := by
  rw [← zpow_natCast, ← zpow_add₀ (two_ne_zero)]
  congr 1
  norm_num
  ring

theorem two_zpow_self (e : ℤ) : (2 : ℚ) ^ e = 2 ^ (52 : ℕ) * (2 : ℚ) ^ (e - 52) := by
  rw [← zpow_natCast, ← zpow_add₀ (two_ne_zero)]
  congr 1
  norm_num

theorem binade_ge (q : ℚ) : -1022 ≤ binade q := le_max_right _ _

theorem abs_lt_of_binade (q : ℚ) (hq : q ≠ 0) : |q| < (2 : ℚ) ^ (binade q + 1) := by
  have hpos : 0 < |q| := abs_pos.mpr hq
  have h := (Int.lt_zpow_iff_log_lt (R := ℚ) (b := 2) (by norm_num) (x := binade q + 1) hpos).mpr
    (by simp only [binade]; have := le_max_left (Int.log 2 |q|) (-1022); omega)
  simpa using h

theorem le_abs_of_binade (q : ℚ) (hq : q ≠ 0) (he : -1022 < binade q) :
    (2 : ℚ) ^ (binade q) ≤ |q| := by
  have hpos : 0 < |q| := abs_pos.mpr hq
  have hlog : binade q = Int.log 2 |q| := by
    simp only [binade] at he ⊢
    rcases le_total (Int.log 2 |q|) (-1022) with h | h
    · rw [max_eq_right h] at he
      omega
    · exact max_eq_left h
  have h := (Int.zpow_le_iff_le_log (R := ℚ) (b := 2) (by norm_num) (x := binade q) hpos).mpr
    (by omega)
  simpa using h

theorem roundDouble_finite_inv (q r : ℚ) (hq : q ≠ 0) (h : roundDouble q = Double.finite r) :
    r = (roundNearestEven (q / (2 : ℚ) ^ (binade q - 52)) : ℚ) * (2 : ℚ) ^ (binade q - 52) ∧
    r < (2 : ℚ) ^ (1024 : ℕ) ∧ -(2 : ℚ) ^ (1024 : ℕ) < r := by
  simp only [roundDouble, if_neg hq] at h
  split_ifs at h with h1 h2
  injection h with h
  subst h
  exact ⟨rfl, not_le.mp h1, not_le.mp h2⟩

theorem mantissa_le (q : ℚ) (hq : q ≠ 0) :
    |((roundNearestEven (q / (2 : ℚ) ^ (binade q - 52)) : ℤ) : ℚ)| ≤ 2 ^ (53 : ℕ) := by
  have hu : (0 : ℚ) < (2 : ℚ) ^ (binade q - 52) := by positivity
  have h1 : |q / (2 : ℚ) ^ (binade q - 52)| < 2 ^ (53 : ℕ) := by
    rw [abs_div, abs_of_pos hu, div_lt_iff₀ hu, ← two_zpow_succ]
    exact abs_lt_of_binade q hq
  have h2 := roundNearestEven_abs_sub_le (q / (2 : ℚ) ^ (binade q - 52))
  have h3 : |((roundNearestEven (q / (2 : ℚ) ^ (binade q - 52)) : ℤ) : ℚ)|
      < ((2 ^ (53 : ℕ) + 1 : ℤ) : ℚ) := by
    have := abs_sub_abs_le_abs_sub
      ((roundNearestEven (q / (2 : ℚ) ^ (binade q - 52)) : ℤ) : ℚ)
      (q / (2 : ℚ) ^ (binade q - 52))
    push_cast
    linarith
  rw [← Int.cast_abs, Int.cast_lt] at h3
  have h4 : |roundNearestEven (q / (2 : ℚ) ^ (binade q - 52))| ≤ (2 ^ (53 : ℕ) : ℤ) := by omega
  rw [← Int.cast_abs]
  exact_mod_cast h4

theorem mantissa_ge (q : ℚ) (hq : q ≠ 0) (he : -1022 < binade q) :
    (2 : ℚ) ^ (52 : ℕ) ≤ |((roundNearestEven (q / (2 : ℚ) ^ (binade q - 52)) : ℤ) : ℚ)| := by
  have hu : (0 : ℚ) < (2 : ℚ) ^ (binade q - 52) := by positivity
  have h1 : (2 : ℚ) ^ (52 : ℕ) ≤ |q / (2 : ℚ) ^ (binade q - 52)| := by
    rw [abs_div, abs_of_pos hu, le_div_iff₀ hu, ← two_zpow_self]
    exact le_abs_of_binade q hq he
  have h2 := roundNearestEven_abs_sub_le (q / (2 : ℚ) ^ (binade q - 52))
  have h3 : ((2 ^ (52 : ℕ) - 1 : ℤ) : ℚ)
      < |((roundNearestEven (q / (2 : ℚ) ^ (binade q - 52)) : ℤ) : ℚ)| := by
    have := abs_sub_abs_le_abs_sub (q / (2 : ℚ) ^ (binade q - 52))
      ((roundNearestEven (q / (2 : ℚ) ^ (binade q - 52)) : ℤ) : ℚ)
    rw [abs_sub_comm] at this
    push_cast
    linarith
  rw [← Int.cast_abs, Int.cast_lt] at h3
  have h4 : (2 ^ (52 : ℕ) : ℤ) ≤ |roundNearestEven (q / (2 : ℚ) ^ (binade q - 52))| := by omega
  rw [← Int.cast_abs]
  exact_mod_cast h4

theorem roundDouble_mantissa (e n : ℤ) (he : -1022 ≤ e) (hn : |(n : ℚ)| ≤ 2 ^ (53 : ℕ))
    (hlow : -1022 < e → (2 : ℚ) ^ (52 : ℕ) ≤ |(n : ℚ)|)
    (hlt : (n : ℚ) * (2 : ℚ) ^ (e - 52) < (2 : ℚ) ^ (1024 : ℕ))
    (hgt : -(2 : ℚ) ^ (1024 : ℕ) < (n : ℚ) * (2 : ℚ) ^ (e - 52)) :
    roundDouble ((n : ℚ) * (2 : ℚ) ^ (e - 52)) = Double.finite ((n : ℚ) * (2 : ℚ) ^ (e - 52)) := by
  have hu : (0 : ℚ) < (2 : ℚ) ^ (e - 52) := by positivity
  rcases eq_or_ne n 0 with h0 | h0
  · subst h0
    simp [roundDouble]
  have hr0 : (n : ℚ) * (2 : ℚ) ^ (e - 52) ≠ 0 :=
    mul_ne_zero (by exact_mod_cast h0) (ne_of_gt hu)
  have habs : |(n : ℚ) * (2 : ℚ) ^ (e - 52)| = |(n : ℚ)| * (2 : ℚ) ^ (e - 52) := by
    rw [abs_mul, abs_of_pos hu]
  rcases lt_or_eq_of_le hn with hlt53 | heq53
  · -- the mantissa stays below 2^53: same binade
    have hb : binade ((n : ℚ) * (2 : ℚ) ^ (e - 52)) = e := by
      have hhi : |(n : ℚ) * (2 : ℚ) ^ (e - 52)| < (2 : ℚ) ^ (e + 1) := by
        rw [habs, two_zpow_succ]
        exact mul_lt_mul_of_pos_right hlt53 hu
      rcases le_or_lt ((2 : ℚ) ^ e) |(n : ℚ) * (2 : ℚ) ^ (e - 52)| with hge | hsmall
      · exact binade_eq _ e he hge hhi
      · have he2 : e = -1022 := by
          by_contra hne
          have hgt2 : -1022 < e := by omega
          have h52 := hlow hgt2
          have : (2 : ℚ) ^ e ≤ |(n : ℚ) * (2 : ℚ) ^ (e - 52)| := by
            rw [habs, two_zpow_self e]
            exact mul_le_mul_of_nonneg_right h52 (le_of_lt hu)
          linarith
        subst he2
        exact binade_subnormal _ hr0 hsmall
    have hq : (n : ℚ) * (2 : ℚ) ^ (e - 52) / (2 : ℚ) ^ (e - 52) = (n : ℚ) := by
      field_simp
    exact roundDouble_eq _ e n hr0 hb (by rw [hq]; exact roundNearestEven_intCast n) hlt hgt
  · -- the mantissa is 2^53: the value is the power of two that opens the next binade
    have habs2 : |(n : ℚ) * (2 : ℚ) ^ (e - 52)| = (2 : ℚ) ^ (e + 1) := by
      rw [habs, heq53, two_zpow_succ]
    have hb : binade ((n : ℚ) * (2 : ℚ) ^ (e - 52)) = e + 1 := by
      refine binade_eq _ (e + 1) (by omega) (le_of_eq habs2.symm) ?_
      rw [habs2]
      exact zpow_lt_zpow_right₀ (by norm_num) (by omega)
    have hu2 : (2 : ℚ) ^ (e + 1 - 52) = 2 * (2 : ℚ) ^ (e - 52) := by
      rw [show e + 1 - 52 = (e - 52) + 1 by ring, zpow_add_one₀ (two_ne_zero)]
      ring
    have hcases : n = 2 ^ (53 : ℕ) ∨ n = -2 ^ (53 : ℕ) := by
      have h1 : |n| = (2 ^ (53 : ℕ) : ℤ) := by
        have : ((|n| : ℤ) : ℚ) = ((2 ^ (53 : ℕ) : ℤ) : ℚ) := by
          rw [Int.cast_abs, heq53]
          norm_num
        exact_mod_cast this
      rcases abs_eq (by positivity : (0 : ℤ) ≤ 2 ^ (53 : ℕ)) |>.mp h1 with h | h
      · exact Or.inl h
      · exact Or.inr h
    rcases hcases with hn1 | hn1
    · have hval : (n : ℚ) * (2 : ℚ) ^ (e - 52)
          = ((2 ^ (52 : ℕ) : ℤ) : ℚ) * (2 : ℚ) ^ (e + 1 - 52) := by
        rw [hu2, hn1]
        push_cast
        ring
      have hq : (n : ℚ) * (2 : ℚ) ^ (e - 52) / (2 : ℚ) ^ (e + 1 - 52)
          = ((2 ^ (52 : ℕ) : ℤ) : ℚ) := by
        rw [hval]
        field_simp
      have := roundDouble_eq ((n : ℚ) * (2 : ℚ) ^ (e - 52)) (e + 1) (2 ^ (52 : ℕ)) hr0 hb
        (by rw [hq]; exact roundNearestEven_intCast _) (by rw [← hval]; exact hlt)
        (by rw [← hval]; exact hgt)
      rw [this, hval]
    · have hval : (n : ℚ) * (2 : ℚ) ^ (e - 52)
          = ((-2 ^ (52 : ℕ) : ℤ) : ℚ) * (2 : ℚ) ^ (e + 1 - 52) := by
        rw [hu2, hn1]
        push_cast
        ring
      have hq : (n : ℚ) * (2 : ℚ) ^ (e - 52) / (2 : ℚ) ^ (e + 1 - 52)
          = ((-2 ^ (52 : ℕ) : ℤ) : ℚ) := by
        rw [hval]
        field_simp
      have := roundDouble_eq ((n : ℚ) * (2 : ℚ) ^ (e - 52)) (e + 1) (-2 ^ (52 : ℕ)) hr0 hb
        (by rw [hq]; exact roundNearestEven_intCast _) (by rw [← hval]; exact hlt)
        (by rw [← hval]; exact hgt)
      rw [this, hval]

/-- Rounding is idempotent: a finite result of `roundDouble` is itself a double. -/
theorem roundDouble_idem (q r : ℚ) (h : roundDouble q = Double.finite r) :
    roundDouble r = Double.finite r := by
  rcases eq_or_ne q 0 with h0 | h0
  · subst h0
    simp only [roundDouble, if_pos] at h
    injection h with h
    subst h
    simp [roundDouble]
  · obtain ⟨hr, hlt, hgt⟩ := roundDouble_finite_inv q r h0 h
    rw [hr] at hlt hgt ⊢
    exact roundDouble_mantissa (binade q) _ (binade_ge q) (mantissa_le q h0)
      (mantissa_ge q h0) hlt hgt

/-- A rounding in the normal range moves a value by at most half a unit in the last
place: the relative error of a finite result is at most 2^-53. -/
theorem roundDouble_error (q r : ℚ) (h : roundDouble q = Double.finite r)
    (hnorm : (2 : ℚ) ^ (-1022 : ℤ) ≤ |q|) : |r - q| ≤ (2 : ℚ) ^ (-53 : ℤ) * |q| := by
  have hq : q ≠ 0 := by
    intro h0
    rw [h0, abs_zero] at hnorm
    have : (0 : ℚ) < (2 : ℚ) ^ (-1022 : ℤ) := by positivity
    linarith
  obtain ⟨hr, _, _⟩ := roundDouble_finite_inv q r hq h
  have hu : (0 : ℚ) < (2 : ℚ) ^ (binade q - 52) := by positivity
  have hlo : (2 : ℚ) ^ (binade q) ≤ |q| := by
    rcases lt_or_eq_of_le (binade_ge q) with hlt | heq
    · exact le_abs_of_binade q hq hlt
    · rw [← heq]
      exact hnorm
  have hn := roundNearestEven_abs_sub_le (q / (2 : ℚ) ^ (binade q - 52))
  have hsplit : r - q
      = ((roundNearestEven (q / (2 : ℚ) ^ (binade q - 52)) : ℚ)
          - q / (2 : ℚ) ^ (binade q - 52)) * (2 : ℚ) ^ (binade q - 52) := by
    rw [hr]
    field_simp
  have h53 : (2 : ℚ) ^ (-53 : ℤ) * (2 : ℚ) ^ (binade q)
      = 1 / 2 * (2 : ℚ) ^ (binade q - 52) := by
    rw [two_zpow_self (binade q)]
    norm_num
    ring
  calc |r - q|
      = |(roundNearestEven (q / (2 : ℚ) ^ (binade q - 52)) : ℚ)
          - q / (2 : ℚ) ^ (binade q - 52)| * (2 : ℚ) ^ (binade q - 52) := by
        rw [hsplit, abs_mul, abs_of_pos hu]
    _ ≤ 1 / 2 * (2 : ℚ) ^ (binade q - 52) := mul_le_mul_of_nonneg_right hn (le_of_lt hu)
    _ = (2 : ℚ) ^ (-53 : ℤ) * (2 : ℚ) ^ (binade q) := h53.symm
    _ ≤ (2 : ℚ) ^ (-53 : ℤ) * |q| := mul_le_mul_of_nonneg_left hlo (by positivity)

/-! ## Centre of mass -/

theorem getCoordinate_getD (mol : OBMol) (k j : Nat) :
    (GetCoordinate mol k).getD j 0 = (GetCoordinates mol).getD (3 * k + j) 0 := by
  simp [GetCoordinate, List.getD_eq_getElem?_getD, List.getElem?_drop]

theorem centerLoop_eq (mol : OBMol) :
    ∀ (atoms : List OBAtom) (k : Nat) (a b c : Double),
      centerLoop mol atoms k [a, b, c] =
        [weightedSumFrom mol 0 k atoms a, weightedSumFrom mol 1 k atoms b,
         weightedSumFrom mol 2 k atoms c] := by
  intro atoms
  induction atoms with
  | nil => intro k a b c; simp [centerLoop, weightedSumFrom]
  | cons atom rest ih =>
    intro k a b c
    have hstep : centerLoop mol (atom :: rest) k [a, b, c] =
        centerLoop mol rest (k + 1)
          [Double.add a (roundDouble (atom.mass * (GetCoordinates mol).getD (3 * k + 0) 0)),
           Double.add b (roundDouble (atom.mass * (GetCoordinates mol).getD (3 * k + 1) 0)),
           Double.add c (roundDouble (atom.mass * (GetCoordinates mol).getD (3 * k + 2) 0))] := by
      simp only [centerLoop, ← getCoordinate_getD]
      rfl
    rw [hstep, ih]
    simp [weightedSumFrom, List.enumFrom_cons]

theorem getMoleculeCenterCoords_eq (M : OBMol) (c0 : List Double) :
    getMoleculeCenterCoords c0 M =
      [Double.div (weightedSum M 0) (GetMolWt M), Double.div (weightedSum M 1) (GetMolWt M),
       Double.div (weightedSum M 2) (GetMolWt M)] := by
  have h0 : List.take 0 c0 ++ List.replicate 3 (Double.finite 0)
      = [Double.finite 0, Double.finite 0, Double.finite 0] := by
    simp [List.replicate]
  simp only [getMoleculeCenterCoords, h0, centerLoop_eq]
  simp [weightedSum]

theorem add_zero_roundDouble (p : ℚ) :
    Double.add (Double.finite 0) (roundDouble p) = roundDouble p := by
  cases h : roundDouble p with
  | finite r =>
    simp only [Double.add, zero_add]
    exact roundDouble_idem p r h
  | posInf => rfl
  | negInf => rfl
  | nan => rfl

theorem div_zero_not_finite (d : Double) (q : ℚ) :
    Double.div d (Double.finite 0) ≠ Double.finite q := by
  cases d with
  | finite a =>
    simp only [Double.div, if_true]
    split_ifs <;> simp
  | posInf => simp [Double.div]
  | negInf => simp [Double.div]
  | nan => simp [Double.div]

theorem getMoleculeCenterCoords_single (c0 : List Double) (mol : OBMol) (a : OBAtom)
    (x y z : ℚ) (hatoms : mol.atoms = [a]) (hpos : GetCoordinates mol = [x, y, z])
    (hm : IsDouble a.mass) :
    getMoleculeCenterCoords c0 mol =
      [Double.div (roundDouble (a.mass * x)) (Double.finite a.mass),
       Double.div (roundDouble (a.mass * y)) (Double.finite a.mass),
       Double.div (roundDouble (a.mass * z)) (Double.finite a.mass)] := by
  have hw : GetMolWt mol = Double.finite a.mass := by
    simp only [GetMolWt, hatoms, List.foldl_cons, List.foldl_nil, Double.add, zero_add]
    exact hm
  rw [getMoleculeCenterCoords_eq, hw]
  simp [weightedSum, weightedSumFrom, hatoms, hpos, List.enumFrom_cons, add_zero_roundDouble]

theorem single_component_exact (m c : ℚ) (hm : m ≠ 0) (hc : IsDouble c)
    (hexact : roundDouble (m * c) = Double.finite (m * c)) :
    Double.div (roundDouble (m * c)) (Double.finite m) = Double.finite c := by
  rw [hexact]
  simp only [Double.div, if_neg hm]
  rw [mul_div_cancel_left₀ c hm]
  exact hc

theorem single_component_error (m c r : ℚ) (hm : m ≠ 0)
    (hprod : (2 : ℚ) ^ (-1022 : ℤ) ≤ |m * c|) (hcoord : (2 : ℚ) ^ (-1021 : ℤ) ≤ |c|)
    (h : Double.div (roundDouble (m * c)) (Double.finite m) = Double.finite r) :
    |r - c| ≤ ((2 : ℚ) ^ (-52 : ℤ) + (2 : ℚ) ^ (-106 : ℤ)) * |c| := by
  cases hp : roundDouble (m * c) with
  | finite p =>
    rw [hp] at h
    simp only [Double.div, if_neg hm] at h
    have hmpos : 0 < |m| := abs_pos.mpr hm
    have e1 := roundDouble_error (m * c) p hp hprod
    have hA : |p / m - c| ≤ (2 : ℚ) ^ (-53 : ℤ) * |c| := by
      have hsplit : p / m - c = (p - m * c) / m := by
        field_simp
      rw [hsplit, abs_div, div_le_iff₀ hmpos]
      calc |p - m * c| ≤ (2 : ℚ) ^ (-53 : ℤ) * |m * c| := e1
        _ = (2 : ℚ) ^ (-53 : ℤ) * |c| * |m| := by rw [abs_mul]; ring
    have hlow : |c| - |p / m - c| ≤ |p / m| := by
      have := abs_sub_abs_le_abs_sub c (p / m)
      rw [abs_sub_comm c (p / m)] at this
      linarith
    have hup : |p / m| ≤ |c| + |p / m - c| := by
      have := abs_sub_abs_le_abs_sub (p / m) c
      linarith
    have hnorm2 : (2 : ℚ) ^ (-1022 : ℤ) ≤ |p / m| := by
      have h2 : (2 : ℚ) ^ (-1021 : ℤ) = 2 * (2 : ℚ) ^ (-1022 : ℤ) := by
        rw [show (-1021 : ℤ) = -1022 + 1 by norm_num, zpow_add_one₀ (two_ne_zero)]
        ring
      have h3 : (2 : ℚ) ^ (-53 : ℤ) ≤ 1 / 2 := by norm_num
      have h4 : (0 : ℚ) ≤ |c| := abs_nonneg c
      have h5 : (2 : ℚ) ^ (-53 : ℤ) * |c| ≤ 1 / 2 * |c| :=
        mul_le_mul_of_nonneg_right h3 h4
      rw [h2] at hcoord
      have key : ∀ A e t X Y : ℚ, 2 * A ≤ t → e * t ≤ 1 / 2 * t → X ≤ e * t → t - X ≤ Y →
          A ≤ Y := by
        intro A e t X Y k1 k2 k3 k4
        linarith
      exact key _ _ _ _ _ hcoord h5 hA hlow
    have e2 := roundDouble_error (p / m) r h hnorm2
    have hB : |r - p / m| ≤ (2 : ℚ) ^ (-53 : ℤ) * (|c| + (2 : ℚ) ^ (-53 : ℤ) * |c|) :=
      le_trans e2 (mul_le_mul_of_nonneg_left (by linarith) (by positivity))
    have htri : |r - c| ≤ |r - p / m| + |p / m - c| := by
      have := abs_add (r - p / m) (p / m - c)
      rwa [sub_add_sub_cancel] at this
    have hconst : (2 : ℚ) ^ (-53 : ℤ) * (|c| + (2 : ℚ) ^ (-53 : ℤ) * |c|)
        + (2 : ℚ) ^ (-53 : ℤ) * |c|
        = ((2 : ℚ) ^ (-52 : ℤ) + (2 : ℚ) ^ (-106 : ℤ)) * |c| := by
      have h52 : (2 : ℚ) ^ (-52 : ℤ) = 2 * (2 : ℚ) ^ (-53 : ℤ) := by
        rw [show (-52 : ℤ) = -53 + 1 by norm_num, zpow_add_one₀ (two_ne_zero)]
        ring
      have h106 : (2 : ℚ) ^ (-106 : ℤ) = (2 : ℚ) ^ (-53 : ℤ) * (2 : ℚ) ^ (-53 : ℤ) := by
        rw [← zpow_add₀ (two_ne_zero)]
        norm_num
      rw [h52, h106]
      ring
    have key : ∀ R Bv Xv b1 b2 total : ℚ, R ≤ Bv + Xv → Bv ≤ b1 → Xv ≤ b2 →
        b1 + b2 = total → R ≤ total := by
      intro R Bv Xv b1 b2 total k1 k2 k3 k4
      linarith
    exact key _ _ _ _ _ _ htri hB hA hconst
  | posInf =>
    rw [hp] at h
    simp only [Double.div] at h
    split_ifs at h
  | negInf =>
    rw [hp] at h
    simp only [Double.div] at h
    split_ifs at h
  | nan =>
    rw [hp] at h
    simp [Double.div] at h

theorem isDouble_one : IsDouble 1 := by
  have hb : binade 1 = 0 := binade_eq _ _ (by norm_num) (by norm_num) (by norm_num)
  have hn : roundNearestEven (1 / (2 : ℚ) ^ ((0 : ℤ) - 52)) = 2 ^ (52 : ℕ) := by
    have : (1 : ℚ) / (2 : ℚ) ^ ((0 : ℤ) - 52) = ((2 ^ (52 : ℕ) : ℤ) : ℚ) := by norm_num
    rw [this]
    exact roundNearestEven_intCast _
  unfold IsDouble
  rw [roundDouble_eq 1 0 (2 ^ (52 : ℕ)) (by norm_num) hb hn (by norm_num) (by norm_num)]
  norm_num

theorem isDouble_two : IsDouble 2 := by
  have hb : binade 2 = 1 := binade_eq _ _ (by norm_num) (by norm_num) (by norm_num)
  have hn : roundNearestEven (2 / (2 : ℚ) ^ ((1 : ℤ) - 52)) = 2 ^ (52 : ℕ) := by
    have : (2 : ℚ) / (2 : ℚ) ^ ((1 : ℤ) - 52) = ((2 ^ (52 : ℕ) : ℤ) : ℚ) := by norm_num
    rw [this]
    exact roundNearestEven_intCast _
  unfold IsDouble
  rw [roundDouble_eq 2 1 (2 ^ (52 : ℕ)) (by norm_num) hb hn (by norm_num) (by norm_num)]
  norm_num

theorem isDouble_three : IsDouble 3 := by
  have hb : binade 3 = 1 := binade_eq _ _ (by norm_num) (by norm_num) (by norm_num)
  have hn : roundNearestEven (3 / (2 : ℚ) ^ ((1 : ℤ) - 52)) = 3 * 2 ^ (51 : ℕ) := by
    have : (3 : ℚ) / (2 : ℚ) ^ ((1 : ℤ) - 52) = ((3 * 2 ^ (51 : ℕ) : ℤ) : ℚ) := by norm_num
    rw [this]
    exact roundNearestEven_intCast _
  unfold IsDouble
  rw [roundDouble_eq 3 1 (3 * 2 ^ (51 : ℕ)) (by norm_num) hb hn (by norm_num) (by norm_num)]
  norm_num

theorem isDouble_oneTenth : IsDouble oneTenth := by
  have hb : binade oneTenth = -4 :=
    binade_eq _ _ (by norm_num) (by norm_num [oneTenth, abs_of_pos])
      (by norm_num [oneTenth, abs_of_pos])
  have hn : roundNearestEven (oneTenth / (2 : ℚ) ^ ((-4 : ℤ) - 52)) = 7205759403792794 := by
    have : oneTenth / (2 : ℚ) ^ ((-4 : ℤ) - 52) = ((7205759403792794 : ℤ) : ℚ) := by
      norm_num [oneTenth]
    rw [this]
    exact roundNearestEven_intCast _
  unfold IsDouble
  rw [roundDouble_eq oneTenth (-4) 7205759403792794 (by norm_num [oneTenth]) hb hn
    (by norm_num) (by norm_num)]
  norm_num [oneTenth]

theorem roundDouble_three_tenths_div_three :
    roundDouble (5404319552844596 / 18014398509481984 / 3)
      = Double.finite (7205759403792795 / 72057594037927936) := by
  have hb : binade (5404319552844596 / 18014398509481984 / 3) = -4 :=
    binade_eq _ _ (by norm_num) (by norm_num [abs_of_pos]) (by norm_num [abs_of_pos])
  have hn : roundNearestEven
      (5404319552844596 / 18014398509481984 / 3 / (2 : ℚ) ^ ((-4 : ℤ) - 52))
      = 7205759403792795 :=
    roundNearestEven_near _ _ (by norm_num) (by norm_num)
  rw [roundDouble_eq _ (-4) 7205759403792795 (by norm_num) hb hn (by norm_num) (by norm_num)]
  norm_num

/-- C9 as stated fails: for a single atom of mass 3 at (0.1, 0, 0), mass and
coordinates being doubles, `getMoleculeCenterCoords` returns
0.1000000000000000194… (the next double above 0.1) as first component, not the
coordinate 0.1 of the atom. -/
theorem getMoleculeCenterCoords_single_atom_rounds :
    massThreeAtom.atoms = [⟨1, 3⟩] ∧ (3 : ℚ) ≠ 0 ∧
    GetCoordinates massThreeAtom = [oneTenth, 0, 0] ∧
    IsDouble 3 ∧ IsDouble oneTenth ∧
    getMoleculeCenterCoords [] massThreeAtom =
      [Double.finite (7205759403792795 / 72057594037927936), Double.finite 0,
       Double.finite 0] ∧
    getMoleculeCenterCoords [] massThreeAtom ≠
      [Double.finite oneTenth, Double.finite 0, Double.finite 0] := by
  have hres : getMoleculeCenterCoords [] massThreeAtom =
      [Double.finite (7205759403792795 / 72057594037927936), Double.finite 0,
       Double.finite 0] := by
    rw [getMoleculeCenterCoords_single [] massThreeAtom ⟨1, 3⟩ oneTenth 0 0 rfl rfl
      isDouble_three]
    have h3 : (3 : ℚ) ≠ 0 := by norm_num
    have hz : Double.div (roundDouble ((3 : ℚ) * 0)) (Double.finite 3) = Double.finite 0 := by
      simp [roundDouble, Double.div]
    rw [hz, roundDouble_three_tenths]
    simp only [Double.div, if_neg h3, roundDouble_three_tenths_div_three]
  refine ⟨rfl, by norm_num, rfl, isDouble_three, isDouble_oneTenth, hres, ?_⟩
  rw [hres]
  intro h
  injection h with h1 _
  injection h1 with h2
  norm_num [oneTenth] at h2

/-- C9 amended: for a molecule whose only atom has a non-zero mass `m` (a double)
and sits at (x, y, z), `getMoleculeCenterCoords` returns three components,
component `c` being the double product of `m` and `c` divided in doubles by `m`.
That component is the coordinate itself whenever the product `m * c` is exactly
representable, and in any case, when nothing overflows or underflows, it differs
from the coordinate by at most the relative error 2^-52 + 2^-106 of the two
roundings. For every molecule the routine returns, per component, the running
double sum over the atoms of mass times coordinate divided in doubles by the
molecular weight; when that weight is zero no component is a finite number. -/
theorem getMoleculeCenterCoords_single_atom (centerCoords : List Double) (mol : OBMol)
    (a : OBAtom) (x y z : ℚ) (hatoms : mol.atoms = [a]) (hmass : a.mass ≠ 0)
    (hpos : GetCoordinates mol = [x, y, z]) (hm : IsDouble a.mass) :
    getMoleculeCenterCoords centerCoords mol =
      [Double.div (roundDouble (a.mass * x)) (Double.finite a.mass),
       Double.div (roundDouble (a.mass * y)) (Double.finite a.mass),
       Double.div (roundDouble (a.mass * z)) (Double.finite a.mass)] ∧
    (∀ c : ℚ, IsDouble c → roundDouble (a.mass * c) = Double.finite (a.mass * c) →
      Double.div (roundDouble (a.mass * c)) (Double.finite a.mass) = Double.finite c) ∧
    (∀ c r : ℚ, (2 : ℚ) ^ (-1022 : ℤ) ≤ |a.mass * c| → (2 : ℚ) ^ (-1021 : ℤ) ≤ |c| →
      Double.div (roundDouble (a.mass * c)) (Double.finite a.mass) = Double.finite r →
      |r - c| ≤ ((2 : ℚ) ^ (-52 : ℤ) + (2 : ℚ) ^ (-106 : ℤ)) * |c|) ∧
    (∀ (M : OBMol) (c0 : List Double),
      getMoleculeCenterCoords c0 M =
        [Double.div (weightedSum M 0) (GetMolWt M), Double.div (weightedSum M 1) (GetMolWt M),
         Double.div (weightedSum M 2) (GetMolWt M)]) ∧
    (∀ (M : OBMol) (c0 : List Double), GetMolWt M = Double.finite 0 →
      ∀ d ∈ getMoleculeCenterCoords c0 M, ∀ q : ℚ, d ≠ Double.finite q) := by
  refine ⟨getMoleculeCenterCoords_single centerCoords mol a x y z hatoms hpos hm,
    fun c hc hexact => single_component_exact a.mass c hmass hc hexact,
    fun c r h1 h2 h => single_component_error a.mass c r hmass h1 h2 h,
    getMoleculeCenterCoords_eq, ?_⟩
  intro M c0 hw d hd q
  rw [getMoleculeCenterCoords_eq, hw] at hd
  simp only [List.mem_cons, List.mem_singleton, List.not_mem_nil, or_false] at hd
  rcases hd with h | h | h <;> rw [h] <;> exact div_zero_not_finite _ q

/-- C9 amended, at a single atom of mass 2 at (1, 0, 0): the products are exact
and the centre is the position of the atom. -/
theorem getMoleculeCenterCoords_single_atom_witness :
    massTwoAtom.atoms = [⟨1, 2⟩] ∧ (⟨1, 2⟩ : OBAtom).mass ≠ 0 ∧
    GetCoordinates massTwoAtom = [1, 0, 0] ∧ IsDouble (⟨1, 2⟩ : OBAtom).mass ∧
    getMoleculeCenterCoords [] massTwoAtom =
      [Double.div (roundDouble ((2 : ℚ) * 1)) (Double.finite 2),
       Double.div (roundDouble ((2 : ℚ) * 0)) (Double.finite 2),
       Double.div (roundDouble ((2 : ℚ) * 0)) (Double.finite 2)] ∧
    Double.div (roundDouble ((2 : ℚ) * 1)) (Double.finite 2) = Double.finite 1 :=
  ⟨rfl, by decide, rfl, isDouble_two,
   (getMoleculeCenterCoords_single_atom [] massTwoAtom ⟨1, 2⟩ 1 0 0 rfl (by decide) rfl
      isDouble_two).1,
   (getMoleculeCenterCoords_single_atom [] massTwoAtom ⟨1, 2⟩ 1 0 0 rfl (by decide) rfl
      isDouble_two).2.1 1 isDouble_one (by rw [mul_one]; exact isDouble_two)⟩

end Utils
